import Mathlib

/-!
# DES crypt(3) in Go (`descrypt.go`): a shallow embedding

The Go package has two entry points, `DESCryptHash` and `DESPasswordVerify`.
Go strings are byte strings; they are embedded as `List Nat`, one list cell per
byte.  `uint8` arithmetic is written out with `% 256`.  Fixed-size Go arrays are
lists of the declared length.  A Go run-time panic (an index or a slice bound
outside its array or string) is the failure `Failure.indexOutOfRange`, so that
the absence of panics is a property of the embedded code and not an assumption
of the embedding.  The four `errors.New` values are the other four failures.
-/

namespace Descrypt

/-! ## Outcomes -/

/-- The ways a call can fail: the four `errors.New` values of `descrypt.go`,
and the run-time panic of an index or slice expression out of range. -/
inductive Failure where
  /-- The error "salt must be 2 characters". -/
  | saltLength
  /-- The error "invalid character in salt". -/
  | invalidSalt
  /-- The error "invalid DES crypt hash length (expected 13 chars)". -/
  | hashLength
  /-- The error "password does not match hash". -/
  | mismatch
  /-- A run-time panic: index or slice bound out of range. -/
  | indexOutOfRange
  deriving DecidableEq, Repr

/-- The message carried by each `errors.New` value. -/
def Failure.message : Failure → String
  | .saltLength => "salt must be 2 characters"
  | .invalidSalt => "invalid character in salt"
  | .hashLength => "invalid DES crypt hash length (expected 13 chars)"
  | .mismatch => "password does not match hash"
  | .indexOutOfRange => "runtime error: index out of range"

deriving instance DecidableEq for Except

/-- The bytes of an ASCII string literal, as Go stores them. -/
def ascii (s : String) : List Nat :=
  s.toList.map Char.toNat

/-! ## Machine arithmetic on `uint8` -/

/-- The `uint8` subtraction `a - b`, which wraps around below zero. -/
def sub8 (a b : Nat) : Nat :=
  (a + (256 - b % 256)) % 256

/-- The `uint8` addition `a + b`, which wraps around above 255. -/
def add8 (a b : Nat) : Nat :=
  (a + b) % 256

/-- The `uint8` left shift `a << n`, which drops the bits above bit 7. -/
def shl8 (a n : Nat) : Nat :=
  (a <<< n) % 256

/-! ## Arrays, slices and loops -/

/-- The read `xs[i]`; it panics when `i` is not below `len(xs)`. -/
def index (xs : List Nat) (i : Nat) : Except Failure Nat :=
  match xs[i]? with
  | some v => .ok v
  | none => .error .indexOutOfRange

/-- The write `xs[i] = v`; it panics when `i` is not below `len(xs)`. -/
def store (xs : List Nat) (i : Nat) (v : Nat) : Except Failure (List Nat) :=
  if i < xs.length then .ok (xs.set i v) else .error .indexOutOfRange

/-- The read `xss[i][j]` of a two-dimensional array. -/
def index2 (xss : List (List Nat)) (i j : Nat) : Except Failure Nat :=
  match xss[i]? with
  | some row => index row j
  | none => .error .indexOutOfRange

/-- The write `xss[i][j] = v` of a two-dimensional array. -/
def store2 (xss : List (List Nat)) (i j : Nat) (v : Nat) : Except Failure (List (List Nat)) :=
  match xss[i]? with
  | some row =>
    match store row j v with
    | .ok row' => .ok (xss.set i row')
    | .error e => .error e
  | none => .error .indexOutOfRange

/-- The slice `s[n:]` of a string; it panics when `n` exceeds `len(s)`. -/
def sliceFrom (s : List Nat) (n : Nat) : Except Failure (List Nat) :=
  if n ≤ s.length then .ok (s.drop n) else .error .indexOutOfRange

/-- The slice `s[:n]` of a string; it panics when `n` exceeds `len(s)`. -/
def sliceTo (s : List Nat) (n : Nat) : Except Failure (List Nat) :=
  if n ≤ s.length then .ok (s.take n) else .error .indexOutOfRange

/-- The builtin `copy(dst, src)`: the first `min(len(dst), len(src))` cells of
`dst` are overwritten with those of `src` (overlapping slices are handled as
by a move), the rest of `dst` stays. -/
def copySlice (dst src : List Nat) : List Nat :=
  src.take dst.length ++ dst.drop src.length

/-- The call `strings.HasPrefix(s, p)`:
`len(s) >= len(p) && s[:len(p)] == p`. -/
def hasPrefix (s p : List Nat) : Bool :=
  decide (p.length ≤ s.length) && decide (s.take p.length = p)

/-- The loop `for i := start; i < start + n; i++ { s = body(i, s) }`, which
stops at the first failure of its body. -/
def loopFrom {σ : Type} (body : Nat → σ → Except Failure σ) : Nat → Nat → σ → Except Failure σ
  | _, 0, s => .ok s
  | start, n + 1, s =>
    match body start s with
    | .ok s' => loopFrom body (start + 1) n s'
    | .error e => .error e

/-- The loop `for i := 0; i < n; i++ { s = body(i, s) }`. -/
def forLoop {σ : Type} (n : Nat) (body : Nat → σ → Except Failure σ) (init : σ) : Except Failure σ :=
  loopFrom body 0 n init

/-! ## Tables (`descrypt.go`, lines 33-149) -/

/-- The string `validChars` (line 15). -/
def validChars : List Nat :=
  ascii "./0123456789ABCDEFGHIJKLMNOPQRSTUVWXYZabcdefghijklmnopqrstuvwxyz"

/-- Initial permutation. -/
def IP : List Nat :=
  [58, 50, 42, 34, 26, 18, 10, 2,
   60, 52, 44, 36, 28, 20, 12, 4,
   62, 54, 46, 38, 30, 22, 14, 6,
   64, 56, 48, 40, 32, 24, 16, 8,
   57, 49, 41, 33, 25, 17, 9, 1,
   59, 51, 43, 35, 27, 19, 11, 3,
   61, 53, 45, 37, 29, 21, 13, 5,
   63, 55, 47, 39, 31, 23, 15, 7]

/-- Final permutation. -/
def FP : List Nat :=
  [40, 8, 48, 16, 56, 24, 64, 32,
   39, 7, 47, 15, 55, 23, 63, 31,
   38, 6, 46, 14, 54, 22, 62, 30,
   37, 5, 45, 13, 53, 21, 61, 29,
   36, 4, 44, 12, 52, 20, 60, 28,
   35, 3, 43, 11, 51, 19, 59, 27,
   34, 2, 42, 10, 50, 18, 58, 26,
   33, 1, 41, 9, 49, 17, 57, 25]

/-- Permuted choice 1, the C half. -/
def PC1_C : List Nat :=
  [57, 49, 41, 33, 25, 17, 9,
   1, 58, 50, 42, 34, 26, 18,
   10, 2, 59, 51, 43, 35, 27,
   19, 11, 3, 60, 52, 44, 36]

/-- Permuted choice 1, the D half. -/
def PC1_D : List Nat :=
  [63, 55, 47, 39, 31, 23, 15,
   7, 62, 54, 46, 38, 30, 22,
   14, 6, 61, 53, 45, 37, 29,
   21, 13, 5, 28, 20, 12, 4]

/-- The rotation schedule of the sixteen rounds. -/
def shifts : List Nat :=
  [1, 1, 2, 2, 2, 2, 2, 2, 1, 2, 2, 2, 2, 2, 2, 1]

/-- Permuted choice 2, the C half. -/
def PC2_C : List Nat :=
  [14, 17, 11, 24, 1, 5,
   3, 28, 15, 6, 21, 10,
   23, 19, 12, 4, 26, 8,
   16, 7, 27, 20, 13, 2]

/-- Permuted choice 2, the D half. -/
def PC2_D : List Nat :=
  [41, 52, 31, 37, 47, 55,
   30, 40, 51, 45, 33, 48,
   44, 49, 39, 56, 34, 53,
   46, 42, 50, 36, 29, 32]

/-- The E bit-selection table. -/
def E : List Nat :=
  [32, 1, 2, 3, 4, 5,
   4, 5, 6, 7, 8, 9,
   8, 9, 10, 11, 12, 13,
   12, 13, 14, 15, 16, 17,
   16, 17, 18, 19, 20, 21,
   20, 21, 22, 23, 24, 25,
   24, 25, 26, 27, 28, 29,
   28, 29, 30, 31, 32, 1]

/-- The eight S-boxes. -/
def S : List (List Nat) :=
  [[14, 4, 13, 1, 2, 15, 11, 8, 3, 10, 6, 12, 5, 9, 0, 7,
    0, 15, 7, 4, 14, 2, 13, 1, 10, 6, 12, 11, 9, 5, 3, 8,
    4, 1, 14, 8, 13, 6, 2, 11, 15, 12, 9, 7, 3, 10, 5, 0,
    15, 12, 8, 2, 4, 9, 1, 7, 5, 11, 3, 14, 10, 0, 6, 13],
   [15, 1, 8, 14, 6, 11, 3, 4, 9, 7, 2, 13, 12, 0, 5, 10,
    3, 13, 4, 7, 15, 2, 8, 14, 12, 0, 1, 10, 6, 9, 11, 5,
    0, 14, 7, 11, 10, 4, 13, 1, 5, 8, 12, 6, 9, 3, 2, 15,
    13, 8, 10, 1, 3, 15, 4, 2, 11, 6, 7, 12, 0, 5, 14, 9],
   [10, 0, 9, 14, 6, 3, 15, 5, 1, 13, 12, 7, 11, 4, 2, 8,
    13, 7, 0, 9, 3, 4, 6, 10, 2, 8, 5, 14, 12, 11, 15, 1,
    13, 6, 4, 9, 8, 15, 3, 0, 11, 1, 2, 12, 5, 10, 14, 7,
    1, 10, 13, 0, 6, 9, 8, 7, 4, 15, 14, 3, 11, 5, 2, 12],
   [7, 13, 14, 3, 0, 6, 9, 10, 1, 2, 8, 5, 11, 12, 4, 15,
    13, 8, 11, 5, 6, 15, 0, 3, 4, 7, 2, 12, 1, 10, 14, 9,
    10, 6, 9, 0, 12, 11, 7, 13, 15, 1, 3, 14, 5, 2, 8, 4,
    3, 15, 0, 6, 10, 1, 13, 8, 9, 4, 5, 11, 12, 7, 2, 14],
   [2, 12, 4, 1, 7, 10, 11, 6, 8, 5, 3, 15, 13, 0, 14, 9,
    14, 11, 2, 12, 4, 7, 13, 1, 5, 0, 15, 10, 3, 9, 8, 6,
    4, 2, 1, 11, 10, 13, 7, 8, 15, 9, 12, 5, 6, 3, 0, 14,
    11, 8, 12, 7, 1, 14, 2, 13, 6, 15, 0, 9, 10, 4, 5, 3],
   [12, 1, 10, 15, 9, 2, 6, 8, 0, 13, 3, 4, 14, 7, 5, 11,
    10, 15, 4, 2, 7, 12, 9, 5, 6, 1, 13, 14, 0, 11, 3, 8,
    9, 14, 15, 5, 2, 8, 12, 3, 7, 0, 4, 10, 1, 13, 11, 6,
    4, 3, 2, 12, 9, 5, 15, 10, 11, 14, 1, 7, 6, 0, 8, 13],
   [4, 11, 2, 14, 15, 0, 8, 13, 3, 12, 9, 7, 5, 10, 6, 1,
    13, 0, 11, 7, 4, 9, 1, 10, 14, 3, 5, 12, 2, 15, 8, 6,
    1, 4, 11, 13, 12, 3, 7, 14, 10, 15, 6, 8, 0, 5, 9, 2,
    6, 11, 13, 8, 1, 4, 10, 7, 9, 5, 0, 15, 14, 2, 3, 12],
   [13, 2, 8, 4, 6, 15, 11, 1, 10, 9, 3, 14, 5, 0, 12, 7,
    1, 15, 13, 8, 10, 3, 7, 4, 12, 5, 6, 11, 0, 14, 9, 2,
    7, 11, 4, 1, 9, 12, 14, 2, 0, 6, 10, 13, 15, 3, 5, 8,
    2, 1, 14, 7, 4, 10, 8, 13, 15, 12, 9, 0, 3, 5, 6, 11]]

/-- The permutation P applied to the S-box output. -/
def P : List Nat :=
  [16, 7, 20, 21,
   29, 12, 28, 17,
   1, 15, 23, 26,
   5, 18, 31, 10,
   2, 8, 24, 14,
   32, 27, 3, 9,
   19, 13, 30, 6,
   22, 11, 4, 25]

/-! ## `DESCryptHash`, step by step -/

/-- Lines 17-23: the search of a salt byte `b` among the bytes `uint8(c)` of
`validChars`. -/
def isValidChar (b : Nat) : Bool :=
  validChars.any (fun c => b == c % 256)

/-- Lines 11-27: the salt must have two bytes, each one of `validChars`. -/
def validateSalt (salt : List Nat) : Except Failure Unit :=
  if salt.length < 2 then .error .saltLength
  else
    forLoop 2 (fun i _ => do
      let b ← index salt i
      if isValidChar b then pure ()
      else .error .invalidSalt) ()

/-- Step 1 (lines 157-166): the 64 key cells, seven bits of each of the first
eight password bytes, most significant first. -/
def keyBits (password : List Nat) : Except Failure (List Nat) :=
  forLoop (min password.length 8) (fun i key => do
    let c ← index password i
    forLoop 7 (fun j key => store key (i * 8 + j) ((c >>> (6 - j)) &&& 1)) key)
    (List.replicate 64 0)

/-- Step 2 (lines 169-173): the halves C and D, selected from the key by PC1. -/
def permutedChoice1 (key : List Nat) : Except Failure (List Nat × List Nat) :=
  forLoop 28 (fun i CD => do
    let pc ← index PC1_C i
    let kc ← index key (sub8 pc 1)
    let C ← store CD.1 i kc
    let pd ← index PC1_D i
    let kd ← index key (sub8 pd 1)
    let D ← store CD.2 i kd
    pure (C, D))
    (List.replicate 28 0, List.replicate 28 0)

/-- Lines 180-184: one left rotation of a 28-cell half, written in the source
as `c0 := C[0]; copy(C[0:], C[1:]); C[27] = c0`. -/
def rotateLeft (C : List Nat) : Except Failure (List Nat) := do
  let c0 ← index C 0
  store (copySlice C (C.drop 1)) 27 c0

/-- Lines 186-189: the 48 cells of subkey `i`, selected from C and D by PC2. -/
def permutedChoice2 (C D : List Nat) (i : Nat) (KS : List (List Nat)) :
    Except Failure (List (List Nat)) :=
  forLoop 24 (fun j KS => do
    let pc ← index PC2_C j
    let v ← index C (sub8 pc 1)
    let KS ← store2 KS i j v
    let pd ← index PC2_D j
    let w ← index D (sub8 (sub8 pd 28) 1)
    store2 KS i (j + 24) w) KS

/-- Step 3 (lines 176-190): the key schedule `KS[16][48]`. -/
def keySchedule (C D : List Nat) : Except Failure (List (List Nat)) := do
  let r ← forLoop 16 (fun i st => do
    let n ← index shifts i
    let CD ← forLoop n (fun _ CD => do
      let C ← rotateLeft CD.1
      let D ← rotateLeft CD.2
      pure (C, D)) (st.1, st.2.1)
    let KS ← permutedChoice2 CD.1 CD.2 i st.2.2
    pure (CD.1, CD.2, KS))
    (C, D, List.replicate 16 (List.replicate 48 0))
  pure r.2.2

/-- Lines 198-205: the six-bit value of a salt byte, in `uint8` arithmetic. -/
def decodeSalt (c : Nat) : Nat :=
  let c := if c > 90 then sub8 c 6 else c
  let c := if c > 57 then sub8 c 7 else c
  sub8 c 46

/-- Steps 4 and 5 (lines 193-213): the E table, with the pairs of cells
chosen by the salt bits swapped. -/
def saltedE (salt : List Nat) : Except Failure (List Nat) :=
  forLoop 2 (fun i Ebits => do
    let c ← index salt i
    let c := decodeSalt c
    forLoop 6 (fun j Ebits =>
      if (c >>> j) &&& 1 ≠ 0 then do
        let t ← index Ebits (6 * i + j)
        let u ← index Ebits (6 * i + j + 24)
        let Ebits ← store Ebits (6 * i + j) u
        store Ebits (6 * i + j + 24) t
      else pure Ebits) Ebits)
    (copySlice (List.replicate 48 0) E)

/-- Lines 236-238: the expansion of the right half, xored with subkey `i`. -/
def expandXor (Ebits : List Nat) (KS : List (List Nat)) (i : Nat) (right : List Nat) :
    Except Failure (List Nat) :=
  forLoop 48 (fun j preS => do
    let e ← index Ebits j
    let r ← index right (sub8 e 1)
    let k ← index2 KS i j
    store preS j (r ^^^ k)) (List.replicate 48 0)

/-- Lines 240-250: the eight S-box lookups. -/
def sBoxes (preS : List Nat) : Except Failure (List Nat) :=
  forLoop 8 (fun j f => do
    let temp := 6 * j
    let p0 ← index preS (temp + 0)
    let p1 ← index preS (temp + 1)
    let p2 ← index preS (temp + 2)
    let p3 ← index preS (temp + 3)
    let p4 ← index preS (temp + 4)
    let p5 ← index preS (temp + 5)
    let idx := shl8 p0 5 ||| shl8 p1 3 ||| shl8 p2 2 ||| shl8 p3 1 ||| shl8 p4 0 ||| shl8 p5 4
    let k ← index2 S j idx
    let temp2 := 4 * j
    let f ← store f (temp2 + 0) ((k >>> 3) &&& 1)
    let f ← store f (temp2 + 1) ((k >>> 2) &&& 1)
    let f ← store f (temp2 + 2) ((k >>> 1) &&& 1)
    store f (temp2 + 3) ((k >>> 0) &&& 1)) (List.replicate 32 0)

/-- Lines 252-255: the new right half, `left[j] ^ f[P[j]-1]`. -/
def permuteXor (left f : List Nat) : Except Failure (List Nat) :=
  forLoop 32 (fun j newRight => do
    let p ← index P j
    let l ← index left j
    let v ← index f (sub8 p 1)
    store newRight j (l ^^^ v)) (List.replicate 32 0)

/-- Lines 231-257: one Feistel round, on the pair `(left, right)`. -/
def feistelRound (Ebits : List Nat) (KS : List (List Nat)) (i : Nat) (LR : List Nat × List Nat) :
    Except Failure (List Nat × List Nat) := do
  let oldRight := copySlice (List.replicate 32 0) LR.2
  let preS ← expandXor Ebits KS i LR.2
  let f ← sBoxes preS
  let newRight ← permuteXor LR.1 f
  pure (oldRight, newRight)

/-- Lines 223-229: the two halves loaded from the block through IP. -/
def loadHalves (block : List Nat) : Except Failure (List Nat × List Nat) := do
  let left ← forLoop 32 (fun j left => do
    let p ← index IP j
    let b ← index block (sub8 p 1)
    store left j b) (List.replicate 32 0)
  let right ← loopFrom (fun j right => do
    let p ← index IP j
    let b ← index block (sub8 p 1)
    store right (j - 32) b) 32 32 (List.replicate 32 0)
  pure (left, right)

/-- Lines 260-262: the swap of the two halves, cell by cell. -/
def swapHalves (LR : List Nat × List Nat) : Except Failure (List Nat × List Nat) :=
  forLoop 32 (fun j LR => do
    let l ← index LR.1 j
    let r ← index LR.2 j
    let left ← store LR.1 j r
    let right ← store LR.2 j l
    pure (left, right)) LR

/-- Lines 264-270: the block written back through FP. -/
def storeBlock (LR : List Nat × List Nat) (block : List Nat) : Except Failure (List Nat) :=
  forLoop 64 (fun j block => do
    let p ← index FP j
    if p < 33 then do
      let v ← index LR.1 (sub8 p 1)
      store block j v
    else do
      let v ← index LR.2 (sub8 p 33)
      store block j v) block

/-- The closure `desEncrypt` (lines 222-271): one DES encryption of the block
with the salted E table and the key schedule, in place. -/
def desEncrypt (Ebits : List Nat) (KS : List (List Nat)) (block : List Nat) :
    Except Failure (List Nat) := do
  let LR ← loadHalves block
  let LR ← forLoop 16 (fun i LR => feistelRound Ebits KS i LR) LR
  let LR ← swapHalves LR
  storeBlock LR block

/-- Lines 286-292: the character of a six-bit group, in `uint8` arithmetic. -/
def encodeChar (c : Nat) : Nat :=
  let c := add8 c 46
  let c := if c > 57 then add8 c 7 else c
  if c > 90 then add8 c 6 else c

/-- Lines 281-285: the six-bit group `i` of the block. -/
def sixBits (block : List Nat) (i : Nat) : Except Failure Nat :=
  forLoop 6 (fun j c => do
    let c := shl8 c 1
    let b ← index block (6 * i + j)
    pure (c ||| b)) 0

/-- Step 8 (lines 277-295): the salt followed by eleven encoded groups. -/
def formatOutput (salt block : List Nat) : Except Failure (List Nat) := do
  let out := List.replicate 13 0
  let s0 ← index salt 0
  let out ← store out 0 s0
  let s1 ← index salt 1
  let out ← store out 1 s1
  forLoop 11 (fun i out => do
    let c ← sixBits block i
    store out (i + 2) (encodeChar c)) out

/-- The function `DESCryptHash` (lines 10-296). -/
def DESCryptHash (password salt : List Nat) : Except Failure (List Nat) := do
  validateSalt salt
  let key ← keyBits password
  let CD ← permutedChoice1 key
  let KS ← keySchedule CD.1 CD.2
  let Ebits ← saltedE salt
  let block := List.replicate 66 0
  let block ← forLoop 25 (fun _ block => desEncrypt Ebits KS block) block
  formatOutput salt block

/-- The literal `"{CRYPT}"`. -/
def cryptPrefix : List Nat :=
  ascii "\x7bCRYPT\x7d"

/-- The body of `DESPasswordVerify` (lines 300-316), with the function it
calls at line 308 as a parameter; `.ok ()` is the `nil` error. -/
def verifyWith (hash : List Nat → List Nat → Except Failure (List Nat))
    (inputPassword storedHash : List Nat) : Except Failure Unit := do
  let storedHash ←
    if hasPrefix storedHash cryptPrefix then sliceFrom storedHash 7 else pure storedHash
  if storedHash.length ≠ 13 then .error .hashLength
  else do
    let salt ← sliceTo storedHash 2
    let computed ← hash inputPassword salt
    if computed ≠ storedHash then .error .mismatch
    else pure ()

/-- The function `DESPasswordVerify` (lines 300-316): the call at line 308 is
to `DESCryptHash`. -/
def DESPasswordVerify (inputPassword storedHash : List Nat) : Except Failure Unit :=
  verifyWith DESCryptHash inputPassword storedHash

/-! ## Words: the bit arrays of the source, packed

The source keeps one bit per array cell.  For the proofs, an array of `n` bit
cells is described by a word `w`, cell `j` holding bit `j` of `w`. -/

/-- Bit `j` of the word `w`, as a number. -/
def bit (w j : Nat) : Nat :=
  (w >>> j) % 2

/-- The array of length `n` whose cell `j` holds `g j`. -/
def tab {α : Type} (n : Nat) (g : Nat → α) : List α :=
  (List.range n).map g

/-- The array of the `n` low bits of `w`, least significant first. -/
def bitsOf (n w : Nat) : List Nat :=
  tab n (bit w)

/-- The word of an array of bits, least significant first. -/
def pack : List Nat → Nat
  | [] => 0
  | b :: bs => b + 2 * pack bs

/-- The word whose bit `j` is bit `tbl[j] - off` of `x`: a selection of bits by
a table of positions counted from `off`. -/
def gather (off : Nat) : List Nat → Nat → Nat
  | [], _ => 0
  | t :: ts, x => Nat.add (Nat.mod (Nat.shiftRight x (Nat.sub t off)) 2) (Nat.mul 2 (gather off ts x))

/-- A salted E table: 48 positions, each in `1..32`. -/
def GoodE (Eb : List Nat) : Prop :=
  Eb.length = 48 ∧ ∀ j, j < 48 → 1 ≤ Eb.getD j 0 ∧ Eb.getD j 0 ≤ 32

/-- The S-box index formed from a six-bit group `g` whose bit `t` is the cell
`preS[6j+t]` (line 243). -/
def sIndex (g : Nat) : Nat :=
  shl8 (bit g 0) 5 ||| shl8 (bit g 1) 3 ||| shl8 (bit g 2) 2 ||| shl8 (bit g 3) 1 |||
    shl8 (bit g 4) 0 ||| shl8 (bit g 5) 4

/-- The four cells written for an S-box output `k` (lines 246-249), as a word. -/
def nibble (k : Nat) : Nat :=
  ((k >>> 3) &&& 1) + 2 * (((k >>> 2) &&& 1) + 2 * (((k >>> 1) &&& 1) + 2 * ((k >>> 0) &&& 1)))

/-- The four cells S-box `j` writes for the six-bit group `g`. -/
def sOut (j g : Nat) : Nat :=
  nibble ((S.getD j []).getD (sIndex g) 0)

/-- The values `sOut j g`, four bits each, at bit position `4 * (64 * j + g)`. -/
@[irreducible] def sPacked : Nat :=
  26850322463300488094968234497613224883018394933339609617958459645761480848206299742585786239799533775533537788114344109860989456967873848206916245444838383688640959478409511732518244507337602484011977851367394386866182907262610358188468170064245493492607268735861722750785252142408361761229993128833625158127111583763624886795664485211217467366011692169042897053579220728882938321591473996496746604413938720780468708842844750257988348984740085014449236659388319088324635360171193085512972133067418987078999729638154556556241930048037019454454994998581344942475887617464664935717246085699174115508745160482587426487335

/-- The entry of `sPacked` for S-box `j` and group `g`. -/
def sLookup (j g : Nat) : Nat :=
  Nat.mod (Nat.shiftRight sPacked (Nat.mul 4 (Nat.add (Nat.mul 64 j) g))) 16

/-- The S-box outputs of the boxes `j, j+1, ..`, `n` of them, for the 48-bit
word `pre`. -/
def sboxFrom : Nat → Nat → Nat → Nat
  | 0, _, _ => 0
  | n + 1, j, pre =>
    Nat.add (sLookup j (Nat.mod (Nat.shiftRight pre (Nat.mul 6 j)) 64))
      (Nat.mul 16 (sboxFrom n (Nat.add j 1) pre))

/-- The 32 cells of `f` for the 48-bit word `pre`. -/
def sboxWord (pre : Nat) : Nat :=
  sboxFrom 8 0 pre

/-- One Feistel round on words: the new pair of halves for the subkey `k`. -/
def roundWord (Eb : List Nat) (k L R : Nat) : Nat :=
  Nat.xor L (gather 1 P (sboxWord (Nat.xor (gather 1 Eb R) k)))

/-- The rounds for the subkeys of a list, in order, on words. -/
def roundsWord (Eb : List Nat) : List Nat → Nat → Nat → Nat × Nat
  | [], L, R => (L, R)
  | k :: ks, L, R => roundsWord Eb ks R (roundWord Eb k L R)

/-- One call of `desEncrypt` on the word of the block. -/
def desEncryptWord (Eb Kws : List Nat) (B : Nat) : Nat :=
  match roundsWord Eb Kws (gather 1 (IP.take 32) B) (gather 1 (IP.drop 32) B) with
  | (L, R) =>
    Nat.add (gather 1 FP (Nat.add (Nat.mod R 4294967296) (Nat.mul 4294967296 L)))
      (Nat.mul 18446744073709551616 (Nat.shiftRight B 64))

/-- The word of the block after `n` calls of `desEncrypt`. -/
def encryptTimes (Eb Kws : List Nat) : Nat → Nat → Nat
  | 0, B => B
  | n + 1, B => encryptTimes Eb Kws n (desEncryptWord Eb Kws B)

/-- The key cells of a password, cell by cell: seven bits of each of the first
eight bytes, the eighth cell of each group and the groups past the end of the
password being zero. -/
def keyList (password : List Nat) : List Nat :=
  tab 64 (fun m =>
    if m / 8 < min password.length 8 ∧ m % 8 < 7 then
      (password.getD (m / 8) 0 >>> (6 - m % 8)) &&& 1
    else 0)

/-- One left rotation of a 28-cell half, on its word. -/
def rotl28 (c : Nat) : Nat :=
  Nat.add (Nat.mod (Nat.shiftRight c 1) 134217728) (Nat.mul 134217728 (Nat.mod c 2))

/-- The word of a half after `n` left rotations. -/
def rotTimes : Nat → Nat → Nat
  | 0, c => c
  | n + 1, c => rotTimes n (rotl28 c)

/-- The word of a half when round `r` begins its rotation (so `halfAt c r` has
been rotated by `shifts[0] + .. + shifts[r-1]`). -/
def halfAt (c : Nat) : Nat → Nat
  | 0 => c
  | r + 1 => rotTimes (shifts.getD r 0) (halfAt c r)

/-- The 48-bit subkey of round `r`, from the words of the halves C and D. -/
def subkeyWord (c d r : Nat) : Nat :=
  Nat.add (gather 1 PC2_C (halfAt c (r + 1)))
    (Nat.mul 16777216 (gather 29 PC2_D (halfAt d (r + 1))))

/-- The sixteen subkeys, as words. -/
def keyWords (c d : Nat) : List Nat :=
  (List.range 16).map (subkeyWord c d)

/-- The salted E table, cell by cell: cell `m` and cell `m + 24` are exchanged
when `m < 12` and bit `m % 6` of the decoded salt byte `m / 6` is set. -/
def saltedTable (salt : List Nat) : List Nat :=
  tab 48 (fun m =>
    if m % 24 < 12 ∧ bit (decodeSalt (salt.getD (m % 24 / 6) 0)) (m % 6) = 1 then
      E.getD ((m + 24) % 48) 0
    else E.getD m 0)

/-- The value the loop of lines 281-285 builds from six cells, the first cell
read being the most significant. -/
def sixOf (b0 b1 b2 b3 b4 b5 : Nat) : Nat :=
  shl8 (shl8 (shl8 (shl8 (shl8 (shl8 0 1 ||| b0) 1 ||| b1) 1 ||| b2) 1 ||| b3) 1 ||| b4) 1 ||| b5

/-- The six-bit group `i` of the block of the word `B`: the value the loop of
lines 281-285 builds. -/
def sixWord (B i : Nat) : Nat :=
  sixOf (bit B (6 * i + 0)) (bit B (6 * i + 1)) (bit B (6 * i + 2)) (bit B (6 * i + 3))
    (bit B (6 * i + 4)) (bit B (6 * i + 5))

/-- The thirteen bytes of the result for the final block word `B`. -/
def hashOf (salt : List Nat) (B : Nat) : List Nat :=
  tab 13 (fun m =>
    if m = 0 then salt.getD 0 0
    else if m = 1 then salt.getD 1 0
    else encodeChar (sixWord B (m - 2)))

/-- The word of the block after the 25 encryptions, for a password and a
salt. -/
def hashWord (password salt : List Nat) : Nat :=
  encryptTimes (saltedTable salt)
    (keyWords (gather 1 PC1_C (pack (keyList password)))
      (gather 1 PC1_D (pack (keyList password)))) 25 0

/-! ## The words of the specification -/

/-- The 64-symbol alphabet `./0-9A-Za-z`, as a set of byte values. -/
def InAlphabet (b : Nat) : Prop :=
  b = 46 ∨ b = 47 ∨ (48 ≤ b ∧ b ≤ 57) ∨ (65 ≤ b ∧ b ≤ 90) ∨ (97 ≤ b ∧ b ≤ 122)

instance (b : Nat) : Decidable (InAlphabet b) := by
  unfold InAlphabet
  infer_instance

/-- The stored string with one leading `{CRYPT}` removed if it starts with it. -/
def stripCrypt (h : List Nat) : List Nat :=
  if cryptPrefix <+: h then h.drop cryptPrefix.length else h

/-- The character of a six-bit value in unbounded arithmetic: `v + '.'`, plus 7
above `'9'`, plus 6 above `'Z'`. -/
def encodePlain (v : Nat) : Nat :=
  let ch := v + 46
  let ch := if ch > 57 then ch + 7 else ch
  if ch > 90 then ch + 6 else ch

/-- The six-bit value of an alphabet byte in the words of the specification,
in unbounded arithmetic: `c - '.'`, minus 7 above `'9'`, minus 6 above `'Z'`. -/
def decodeSpec (c : Nat) : Int :=
  let v : Int := (c : Int) - 46
  let v := if c > 57 then v - 7 else v
  if c > 90 then v - 6 else v

/-- The rotation total of round `r`: `shifts[0] + ... + shifts[r]`. -/
def shiftSum (r : Nat) : Nat :=
  (shifts.take (r + 1)).sum

/-- An array holding only the values 0 and 1. -/
def Bits (l : List Nat) : Prop :=
  ∀ b, b ∈ l → b ≤ 1

end Descrypt

/-! # Theorems -/

namespace Descrypt

/-! ## Outcomes and loops -/

@[simp] theorem ok_bind {α β : Type} (a : α) (f : α → Except Failure β) :
    (Except.ok a >>= f) = f a := id rfl

@[simp] theorem error_bind {α β : Type} (e : Failure) (f : α → Except Failure β) :
    ((Except.error e : Except Failure α) >>= f) = Except.error e := id rfl

@[simp] theorem pure_eq_ok {α : Type} (a : α) : (pure a : Except Failure α) = Except.ok a := id rfl

/-- A loop whose body maps the state `F k` to `F (k + 1)` at every index `k` it
visits ends in the state `F (start + n)`. -/
theorem loopFrom_eq {σ : Type} (body : Nat → σ → Except Failure σ) (F : Nat → σ) :
    ∀ (n start : Nat), (∀ k, start ≤ k → k < start + n → body k (F k) = .ok (F (k + 1))) →
      loopFrom body start n (F start) = .ok (F (start + n))
  | 0, start, _ => by simp [loopFrom]
  | n + 1, start, h => by
    have h0 := h start (Nat.le_refl _) (by omega)
    have ih := loopFrom_eq body F n (start + 1) (fun k hk hk' => h k (by omega) (by omega))
    simp only [loopFrom, h0, ih]
    congr 2
    omega

theorem forLoop_eq {σ : Type} (body : Nat → σ → Except Failure σ) (F : Nat → σ) (n : Nat)
    (h : ∀ k, k < n → body k (F k) = .ok (F (k + 1))) :
    forLoop n body (F 0) = .ok (F n) := by
  have := loopFrom_eq body F n 0 (fun k _ hk => h k (by omega))
  simpa [forLoop] using this

/-- The same, with the first and the last state given up to equality. -/
theorem loopFrom_steps {σ : Type} (body : Nat → σ → Except Failure σ) (F : Nat → σ)
    (n start : Nat) (init final : σ) (h0 : init = F start) (hn : F (start + n) = final)
    (h : ∀ k, start ≤ k → k < start + n → body k (F k) = .ok (F (k + 1))) :
    loopFrom body start n init = .ok final := by
  rw [h0, ← hn]
  exact loopFrom_eq body F n start h

theorem forLoop_steps {σ : Type} (body : Nat → σ → Except Failure σ) (F : Nat → σ) (n : Nat)
    (init final : σ) (h0 : init = F 0) (hn : F n = final)
    (h : ∀ k, k < n → body k (F k) = .ok (F (k + 1))) :
    forLoop n body init = .ok final := by
  rw [h0, ← hn]
  exact forLoop_eq body F n h

/-- Two loops whose bodies agree at every index visited agree. -/
theorem loopFrom_congr {σ : Type} (body body' : Nat → σ → Except Failure σ) :
    ∀ (n start : Nat) (s : σ), (∀ k s, start ≤ k → k < start + n → body k s = body' k s) →
      loopFrom body start n s = loopFrom body' start n s
  | 0, _, _, _ => by simp [loopFrom]
  | n + 1, start, s, h => by
    simp only [loopFrom, h start s (Nat.le_refl _) (by omega)]
    cases body' start s with
    | error e => rfl
    | ok s' => exact loopFrom_congr body body' n (start + 1) s' (fun k s hk hk' => h k s (by omega) (by omega))

/-! ## Arrays as tables -/

@[simp] theorem tab_length {α : Type} (n : Nat) (g : Nat → α) : (tab n g).length = n := by
  simp [tab]

theorem tab_getElem? {α : Type} (n : Nat) (g : Nat → α) (i : Nat) :
    (tab n g)[i]? = if i < n then some (g i) else none := by
  unfold tab
  by_cases h : i < n
  · simp [h, List.getElem?_range h]
  · simp [h, Nat.le_of_not_lt h]

theorem tab_congr {α : Type} {n : Nat} {g g' : Nat → α} (h : ∀ i, i < n → g i = g' i) :
    tab n g = tab n g' := by
  apply List.ext_getElem?
  intro i
  simp only [tab_getElem?]
  by_cases hi : i < n
  · simp [hi, h i hi]
  · simp [hi]

theorem replicate_eq_tab {α : Type} (n : Nat) (v : α) :
    List.replicate n v = tab n (fun _ => v) := by
  apply List.ext_getElem?
  intro i
  simp [tab_getElem?, List.getElem?_replicate]

theorem eq_tab_getD (l : List Nat) : l = tab l.length (fun i => l.getD i 0) := by
  apply List.ext_getElem?
  intro i
  simp only [tab_getElem?]
  by_cases hi : i < l.length
  · simp [hi, List.getD_eq_getElem?_getD, List.getElem?_eq_getElem hi]
  · simp [hi, List.getElem?_eq_none (Nat.le_of_not_lt hi)]

theorem index_tab {n i : Nat} (g : Nat → Nat) (h : i < n) : index (tab n g) i = .ok (g i) := by
  unfold index
  rw [tab_getElem?, if_pos h]

theorem store_tab {n i : Nat} (g : Nat → Nat) (v : Nat) (h : i < n) :
    store (tab n g) i v = .ok (tab n (Function.update g i v)) := by
  simp only [store, tab_length, h, if_true]
  congr 1
  apply List.ext_getElem?
  intro j
  simp only [List.getElem?_set, tab_getElem?, tab_length, Function.update_apply]
  by_cases hj : i = j
  · subst hj; simp [h]
  · have : ¬ j = i := fun e => hj e.symm
    simp [hj, this]

theorem index_ok {l : List Nat} {i : Nat} (h : i < l.length) : index l i = .ok (l.getD i 0) := by
  simp [index, List.getD_eq_getElem?_getD, List.getElem?_eq_getElem h]

/-- A loop that writes cell `k` at step `k` fills the first `cnt` cells. -/
theorem forLoop_fill (n cnt : Nat) (body : Nat → List Nat → Except Failure (List Nat))
    (g init : Nat → Nat)
    (h : ∀ k, k < cnt → ∀ acc : Nat → Nat,
      body k (tab n acc) = .ok (tab n (Function.update acc k (g k)))) :
    forLoop cnt body (tab n init) = .ok (tab n (fun m => if m < cnt then g m else init m)) := by
  have key := forLoop_eq body (fun k => tab n (fun m => if m < k then g m else init m)) cnt
    (fun k hk => by
      rw [h k hk]
      congr 1
      apply tab_congr
      intro i _
      simp only [Function.update_apply]
      by_cases hik : i = k
      · subst hik; simp
      · have h1 : (i < k + 1) = (i < k) := by
          apply propext; constructor <;> intro <;> omega
        simp [hik, h1])
  simpa using key

/-! ## Bits of words -/

theorem bit_eq_toNat (w j : Nat) : bit w j = (w.testBit j).toNat := by
  rw [Nat.toNat_testBit, bit, Nat.shiftRight_eq_div_pow]

theorem bit_le_one (w j : Nat) : bit w j ≤ 1 := by
  unfold bit; omega

theorem bit_zero_word (j : Nat) : bit 0 j = 0 := by
  simp [bit]

theorem bit_xor (a b j : Nat) : bit (a ^^^ b) j = bit a j ^^^ bit b j := by
  simp only [bit_eq_toNat, Nat.testBit_xor]
  cases a.testBit j <;> cases b.testBit j <;> rfl

theorem eq_of_bit_eq {a b : Nat} (h : ∀ j, bit a j = bit b j) : a = b := by
  apply Nat.eq_of_testBit_eq
  intro j
  have := h j
  simp only [bit_eq_toNat] at this
  revert this
  cases a.testBit j <;> cases b.testBit j <;> simp

theorem bit_succ_double (b w j : Nat) (hb : b ≤ 1) : bit (b + 2 * w) (j + 1) = bit w j := by
  simp only [bit, Nat.shiftRight_eq_div_pow, Nat.pow_succ]
  rw [Nat.mul_comm (2 ^ j) 2, ← Nat.div_div_eq_div_mul]
  congr 2
  omega

theorem bit_zero_double (b w : Nat) (hb : b ≤ 1) : bit (b + 2 * w) 0 = b := by
  simp only [bit, Nat.shiftRight_zero]
  omega

theorem gather_cons (off t : Nat) (ts : List Nat) (x : Nat) :
    gather off (t :: ts) x = bit x (t - off) + 2 * gather off ts x := rfl

/-- Bit `j` of a gathered word is the bit of the source the table names. -/
theorem bit_gather (off : Nat) (x : Nat) :
    ∀ (tbl : List Nat) (j : Nat), j < tbl.length →
      bit (gather off tbl x) j = bit x (tbl.getD j 0 - off)
  | [], j, h => by simp at h
  | t :: ts, 0, _ => by
    rw [gather_cons, bit_zero_double _ _ (bit_le_one _ _)]
    simp
  | t :: ts, j + 1, h => by
    rw [gather_cons, bit_succ_double _ _ _ (bit_le_one _ _)]
    have := bit_gather off x ts j (by simpa using h)
    simpa using this

theorem bit_gather_high (off : Nat) (x : Nat) :
    ∀ (tbl : List Nat) (j : Nat), tbl.length ≤ j → bit (gather off tbl x) j = 0
  | [], j, _ => by simp [gather, bit]
  | t :: ts, 0, h => by simp at h
  | t :: ts, j + 1, h => by
    rw [gather_cons, bit_succ_double _ _ _ (bit_le_one _ _)]
    exact bit_gather_high off x ts j (by simpa using h)

theorem bitsOf_length (n w : Nat) : (bitsOf n w).length = n := by
  simp [bitsOf]

theorem index_bitsOf {n i : Nat} (w : Nat) (h : i < n) : index (bitsOf n w) i = .ok (bit w i) :=
  index_tab _ h

/-- An array of bits is the array of the bits of its word. -/
theorem bitsOf_pack : ∀ (l : List Nat), (∀ b, b ∈ l → b ≤ 1) → bitsOf l.length (pack l) = l
  | [], _ => by simp [bitsOf, tab]
  | b :: bs, h => by
    have hb : b ≤ 1 := h b (by simp)
    have ih := bitsOf_pack bs (fun c hc => h c (by simp [hc]))
    apply List.ext_getElem?
    intro i
    cases i with
    | zero =>
      simp only [bitsOf, tab_getElem?, pack, List.length_cons]
      simp [bit_zero_double _ _ hb]
    | succ i =>
      have e1 : (bitsOf bs.length (pack bs))[i]? = bs[i]? := by rw [ih]
      simp only [bitsOf, tab_getElem?] at e1
      simp only [bitsOf, tab_getElem?, pack, bit_succ_double _ _ _ hb, List.length_cons,
        List.getElem?_cons_succ, Nat.add_lt_add_iff_right]
      exact e1

theorem sub8_of_le {a b : Nat} (hb : b ≤ a) (ha : a < 256) : sub8 a b = a - b := by
  unfold sub8
  have : b % 256 = b := Nat.mod_eq_of_lt (by omega)
  rw [this]
  omega

theorem index2_map_bitsOf (Kws : List Nat) (n i j : Nat) (hi : i < Kws.length) (hj : j < n) :
    index2 (Kws.map (bitsOf n)) i j = .ok (bit (Kws.getD i 0) j) := by
  unfold index2
  rw [List.getElem?_map, List.getElem?_eq_getElem hi]
  simp only [Option.map_some']
  rw [index_bitsOf _ hj, List.getD_eq_getElem?_getD, List.getElem?_eq_getElem hi]
  rfl

/-! ## The round function on words -/

theorem expandXor_bits (Eb Kws : List Nat) (i R : Nat) (hE : GoodE Eb) (hi : i < Kws.length) :
    expandXor Eb (Kws.map (bitsOf 48)) i (bitsOf 32 R) =
      .ok (bitsOf 48 (gather 1 Eb R ^^^ Kws.getD i 0)) := by
  unfold expandXor
  rw [replicate_eq_tab, forLoop_fill 48 48 _
    (fun j => bit R (Eb.getD j 0 - 1) ^^^ bit (Kws.getD i 0) j)]
  · congr 1
    apply tab_congr
    intro j hj
    simp only [hj, if_true, bit_xor]
    rw [bit_gather 1 R Eb j (by rw [hE.1]; exact hj)]
  · intro k hk acc
    have hk' : k < Eb.length := by rw [hE.1]; exact hk
    have hb := hE.2 k hk
    simp only [index_ok hk', ok_bind, sub8_of_le hb.1 (by omega : Eb.getD k 0 < 256)]
    rw [index_bitsOf R (by omega : Eb.getD k 0 - 1 < 32)]
    simp only [ok_bind, index2_map_bitsOf Kws 48 i k hi hk, store_tab _ _ hk]

theorem bit_add_mul (a b k m : Nat) (ha : a < 2 ^ k) :
    bit (a + 2 ^ k * b) m = if m < k then bit a m else bit b (m - k) := by
  simp only [bit_eq_toNat]
  rw [Nat.add_comm, Nat.testBit_mul_pow_two_add b ha m]
  split <;> rfl

theorem bit_shift_mod (w s n t : Nat) (ht : t < n) : bit ((w >>> s) % 2 ^ n) t = bit w (s + t) := by
  simp only [bit_eq_toNat, Nat.testBit_mod_two_pow, Nat.testBit_shiftRight, ht, decide_True,
    Bool.true_and]

theorem bit_mod (w n t : Nat) (ht : t < n) : bit (w % 2 ^ n) t = bit w t := by
  simp only [bit_eq_toNat, Nat.testBit_mod_two_pow, ht, decide_True, Bool.true_and]

theorem bit_mod_high (w n t : Nat) (ht : n ≤ t) : bit (w % 2 ^ n) t = 0 := by
  have : ¬ t < n := by omega
  simp [bit_eq_toNat, Nat.testBit_mod_two_pow, this]

theorem bit_shiftRight (w s t : Nat) : bit (w >>> s) t = bit w (s + t) := by
  simp only [bit_eq_toNat, Nat.testBit_shiftRight]

theorem index2_ok {xss : List (List Nat)} {i j : Nat} (hi : i < xss.length)
    (hj : j < (xss.getD i []).length) :
    index2 xss i j = .ok ((xss.getD i []).getD j 0) := by
  unfold index2
  have e : xss.getD i [] = xss[i] := by
    rw [List.getD_eq_getElem?_getD, List.getElem?_eq_getElem hi]; rfl
  rw [List.getElem?_eq_getElem hi]
  simp only
  rw [e] at hj ⊢
  exact index_ok hj

/-! ## The S-boxes on words -/

theorem sIndex_lt : ∀ g, g < 64 → sIndex g < 64 := by decide

theorem S_length : S.length = 8 := rfl

theorem S_row_length : ∀ j, j < 8 → (S.getD j []).length = 64 := by decide

set_option maxRecDepth 100000 in
theorem sLookup_eq : ∀ j, j < 8 → ∀ g, g < 64 → sLookup j g = sOut j g := by decide!

theorem S_entry_lt : ∀ j, j < 8 → ∀ i, i < 64 → (S.getD j []).getD i 0 < 16 := by decide!

theorem bit_nibble (k : Nat) : ∀ t, t < 4 → bit (nibble k) t = (k >>> (3 - t)) &&& 1 := by
  have h (x : Nat) : x &&& 1 ≤ 1 := by rw [Nat.and_one_is_mod]; omega
  intro t ht
  unfold nibble
  match t, ht with
  | 0, _ => rw [bit_zero_double _ _ (h _)]
  | 1, _ => rw [bit_succ_double _ _ _ (h _), bit_zero_double _ _ (h _)]
  | 2, _ =>
    rw [bit_succ_double _ _ _ (h _), bit_succ_double _ _ _ (h _), bit_zero_double _ _ (h _)]
  | 3, _ =>
    rw [bit_succ_double _ _ _ (h _), bit_succ_double _ _ _ (h _), bit_succ_double _ _ _ (h _)]
    simp [bit, Nat.and_one_is_mod]

theorem sLookup_lt (j g : Nat) : sLookup j g < 2 ^ 4 :=
  Nat.mod_lt _ (by decide)

theorem bit_sboxFrom (pre : Nat) : ∀ (n j m : Nat), m < 4 * n →
    bit (sboxFrom n j pre) m =
      bit (sLookup (j + m / 4) ((pre >>> (6 * (j + m / 4))) % 64)) (m % 4)
  | 0, _, _, h => by omega
  | n + 1, j, m, h => by
    have e : sboxFrom (n + 1) j pre =
        sLookup j ((pre >>> (6 * j)) % 64) + 2 ^ 4 * sboxFrom n (j + 1) pre := rfl
    rw [e, bit_add_mul _ _ _ _ (sLookup_lt _ _)]
    by_cases hm : m < 4
    · have h1 : m / 4 = 0 := by omega
      have h2 : m % 4 = m := by omega
      simp [hm, h1, h2]
    · rw [if_neg hm, bit_sboxFrom pre n (j + 1) (m - 4) (by omega)]
      have h1 : j + 1 + (m - 4) / 4 = j + m / 4 := by omega
      have h2 : (m - 4) % 4 = m % 4 := by omega
      rw [h1, h2]

/-- Cell `4k+t` of `f` is bit `3-t` of the output of S-box `k`. -/
theorem bit_sboxWord (pre k t : Nat) (hk : k < 8) (ht : t < 4) :
    bit (sboxWord pre) (4 * k + t) =
      ((S.getD k []).getD (sIndex ((pre >>> (6 * k)) % 64)) 0 >>> (3 - t)) &&& 1 := by
  unfold sboxWord
  rw [bit_sboxFrom pre 8 0 (4 * k + t) (by omega)]
  have h1 : 0 + (4 * k + t) / 4 = k := by omega
  have h2 : (4 * k + t) % 4 = t := by omega
  rw [h1, h2, sLookup_eq k hk _ (Nat.mod_lt _ (by decide)), sOut, bit_nibble _ t ht]

theorem sIndex_shift (pre k : Nat) :
    shl8 (bit pre (6 * k + 0)) 5 ||| shl8 (bit pre (6 * k + 1)) 3 |||
      shl8 (bit pre (6 * k + 2)) 2 ||| shl8 (bit pre (6 * k + 3)) 1 |||
      shl8 (bit pre (6 * k + 4)) 0 ||| shl8 (bit pre (6 * k + 5)) 4 =
      sIndex ((pre >>> (6 * k)) % 64) := by
  unfold sIndex
  have e : (64 : Nat) = 2 ^ 6 := rfl
  rw [e]
  simp only [bit_shift_mod pre (6 * k) 6 _ (by decide : 0 < 6),
    bit_shift_mod pre (6 * k) 6 _ (by decide : 1 < 6),
    bit_shift_mod pre (6 * k) 6 _ (by decide : 2 < 6),
    bit_shift_mod pre (6 * k) 6 _ (by decide : 3 < 6),
    bit_shift_mod pre (6 * k) 6 _ (by decide : 4 < 6),
    bit_shift_mod pre (6 * k) 6 _ (by decide : 5 < 6)]

/-- The body of the S-box loop, at box `k`, on an array of 32 cells. -/
theorem sBoxes_step (pre k : Nat) (hk : k < 8) (F : Nat → Nat) :
    (do
      let temp := 6 * k
      let p0 ← index (bitsOf 48 pre) (temp + 0)
      let p1 ← index (bitsOf 48 pre) (temp + 1)
      let p2 ← index (bitsOf 48 pre) (temp + 2)
      let p3 ← index (bitsOf 48 pre) (temp + 3)
      let p4 ← index (bitsOf 48 pre) (temp + 4)
      let p5 ← index (bitsOf 48 pre) (temp + 5)
      let idx := shl8 p0 5 ||| shl8 p1 3 ||| shl8 p2 2 ||| shl8 p3 1 ||| shl8 p4 0 ||| shl8 p5 4
      let v ← index2 S k idx
      let temp2 := 4 * k
      let f ← store (tab 32 F) (temp2 + 0) ((v >>> 3) &&& 1)
      let f ← store f (temp2 + 1) ((v >>> 2) &&& 1)
      let f ← store f (temp2 + 2) ((v >>> 1) &&& 1)
      store f (temp2 + 3) ((v >>> 0) &&& 1)) =
    .ok (tab 32 (fun m =>
      if 4 * k ≤ m ∧ m < 4 * k + 4 then bit (sboxWord pre) m else F m)) := by
  have hg : (pre >>> (6 * k)) % 64 < 64 := Nat.mod_lt _ (by decide)
  have hrow : sIndex ((pre >>> (6 * k)) % 64) < (S.getD k []).length := by
    rw [S_row_length k hk]; exact sIndex_lt _ hg
  simp only [index_bitsOf pre (by omega : 6 * k + 0 < 48),
    index_bitsOf pre (by omega : 6 * k + 1 < 48), index_bitsOf pre (by omega : 6 * k + 2 < 48),
    index_bitsOf pre (by omega : 6 * k + 3 < 48), index_bitsOf pre (by omega : 6 * k + 4 < 48),
    index_bitsOf pre (by omega : 6 * k + 5 < 48), ok_bind, sIndex_shift]
  rw [index2_ok (by rw [S_length]; exact hk : k < S.length) hrow]
  simp only [ok_bind]
  rw [store_tab _ _ (by omega : 4 * k + 0 < 32)]
  simp only [ok_bind]
  rw [store_tab _ _ (by omega : 4 * k + 1 < 32)]
  simp only [ok_bind]
  rw [store_tab _ _ (by omega : 4 * k + 2 < 32)]
  simp only [ok_bind]
  rw [store_tab _ _ (by omega : 4 * k + 3 < 32)]
  congr 1
  apply tab_congr
  intro m _
  simp only [Function.update_apply]
  have b0 := bit_sboxWord pre k 0 hk (by decide)
  have b1 := bit_sboxWord pre k 1 hk (by decide)
  have b2 := bit_sboxWord pre k 2 hk (by decide)
  have b3 := bit_sboxWord pre k 3 hk (by decide)
  by_cases h3 : m = 4 * k + 3
  · rw [if_pos h3, if_pos (by omega), h3, b3]
  · rw [if_neg h3]
    by_cases h2 : m = 4 * k + 2
    · rw [if_pos h2, if_pos (by omega), h2, b2]
    · rw [if_neg h2]
      by_cases h1 : m = 4 * k + 1
      · rw [if_pos h1, if_pos (by omega), h1, b1]
      · rw [if_neg h1]
        by_cases h0 : m = 4 * k + 0
        · rw [if_pos h0, if_pos (by omega), h0, b0]
        · rw [if_neg h0, if_neg (by omega)]

theorem sBoxes_bits (pre : Nat) : sBoxes (bitsOf 48 pre) = .ok (bitsOf 32 (sboxWord pre)) := by
  unfold sBoxes
  rw [replicate_eq_tab]
  refine forLoop_steps _ (fun k => tab 32 (fun m => if m < 4 * k then bit (sboxWord pre) m else 0))
    8 _ _ ?_ ?_ ?_
  · exact tab_congr (fun m _ => by simp)
  · exact tab_congr (fun m hm => by rw [if_pos (by omega)])
  · intro k hk
    beta_reduce
    rw [sBoxes_step pre k hk]
    refine congrArg Except.ok (tab_congr ?_)
    intro m _
    by_cases h1 : 4 * k ≤ m ∧ m < 4 * k + 4
    · rw [if_pos h1, if_pos (by omega)]
    · rw [if_neg h1]
      by_cases h2 : m < 4 * k
      · rw [if_pos h2, if_pos (by omega)]
      · rw [if_neg h2, if_neg (by omega)]

/-! ## One round, and one encryption, on words -/

theorem P_length : P.length = 32 := rfl

theorem P_range : ∀ j, j < 32 → 1 ≤ P.getD j 0 ∧ P.getD j 0 ≤ 32 := by decide

theorem permuteXor_bits (L f : Nat) :
    permuteXor (bitsOf 32 L) (bitsOf 32 f) = .ok (bitsOf 32 (L ^^^ gather 1 P f)) := by
  unfold permuteXor
  rw [replicate_eq_tab, forLoop_fill 32 32 _ (fun j => bit L j ^^^ bit f (P.getD j 0 - 1))]
  · refine congrArg Except.ok (tab_congr ?_)
    intro j hj
    simp only [hj, if_true, bit_xor]
    rw [bit_gather 1 f P j (by rw [P_length]; exact hj)]
  · intro k hk acc
    have hb := P_range k hk
    simp only [index_ok (by rw [P_length]; exact hk : k < P.length), ok_bind,
      index_bitsOf L hk, sub8_of_le hb.1 (by omega : P.getD k 0 < 256)]
    rw [index_bitsOf f (by omega : P.getD k 0 - 1 < 32)]
    simp only [ok_bind, store_tab _ _ hk]

theorem copySlice_same_length (dst src : List Nat) (h : dst.length = src.length) :
    copySlice dst src = src := by
  unfold copySlice
  rw [h, List.take_length, List.drop_of_length_le (by omega)]
  simp

theorem feistelRound_bits (Eb Kws : List Nat) (i L R : Nat) (hE : GoodE Eb)
    (hi : i < Kws.length) :
    feistelRound Eb (Kws.map (bitsOf 48)) i (bitsOf 32 L, bitsOf 32 R) =
      .ok (bitsOf 32 R, bitsOf 32 (roundWord Eb (Kws.getD i 0) L R)) := by
  unfold feistelRound
  simp only [expandXor_bits Eb Kws i R hE hi, ok_bind, sBoxes_bits, permuteXor_bits, pure_eq_ok]
  rw [copySlice_same_length _ _ (by simp [bitsOf_length])]
  rfl

theorem roundsWord_append (Eb : List Nat) (k : Nat) :
    ∀ (ks : List Nat) (L R : Nat),
      roundsWord Eb (ks ++ [k]) L R =
        ((roundsWord Eb ks L R).2,
          roundWord Eb k (roundsWord Eb ks L R).1 (roundsWord Eb ks L R).2)
  | [], L, R => rfl
  | k' :: ks, L, R => by
    simp only [List.cons_append, roundsWord]
    exact roundsWord_append Eb k ks _ _

theorem take_succ_getD (l : List Nat) (k : Nat) (hk : k < l.length) :
    l.take (k + 1) = l.take k ++ [l.getD k 0] := by
  rw [List.take_succ, List.getElem?_eq_getElem hk, List.getD_eq_getElem?_getD,
    List.getElem?_eq_getElem hk]
  rfl

theorem rounds_bits (Eb Kws : List Nat) (L R : Nat) (hE : GoodE Eb) (hK : Kws.length = 16) :
    forLoop 16 (fun i LR => feistelRound Eb (Kws.map (bitsOf 48)) i LR)
        (bitsOf 32 L, bitsOf 32 R) =
      .ok (bitsOf 32 (roundsWord Eb Kws L R).1, bitsOf 32 (roundsWord Eb Kws L R).2) := by
  refine forLoop_steps _ (fun k => (bitsOf 32 (roundsWord Eb (Kws.take k) L R).1,
    bitsOf 32 (roundsWord Eb (Kws.take k) L R).2)) 16 _ _ ?_ ?_ ?_
  · simp [roundsWord]
  · have : Kws.take 16 = Kws := by rw [← hK, List.take_length]
    simp only [this]
  · intro k hk
    beta_reduce
    have hk' : k < Kws.length := by omega
    rw [feistelRound_bits Eb Kws k _ _ hE hk', take_succ_getD Kws k hk', roundsWord_append]

theorem IP_length : IP.length = 64 := rfl

theorem IP_range : ∀ j, j < 64 → 1 ≤ IP.getD j 0 ∧ IP.getD j 0 ≤ 64 := by decide

theorem IP_take : ∀ j, j < 32 → (IP.take 32).getD j 0 = IP.getD j 0 := by decide

theorem IP_drop : ∀ j, j < 32 → (IP.drop 32).getD j 0 = IP.getD (j + 32) 0 := by decide

theorem FP_length : FP.length = 64 := rfl

theorem FP_range : ∀ j, j < 64 → 1 ≤ FP.getD j 0 ∧ FP.getD j 0 ≤ 64 := by decide

theorem loadHalves_bits (B : Nat) :
    loadHalves (bitsOf 66 B) =
      .ok (bitsOf 32 (gather 1 (IP.take 32) B), bitsOf 32 (gather 1 (IP.drop 32) B)) := by
  unfold loadHalves
  have hstep : ∀ k, k < 64 → ∀ (acc : Nat → Nat) (pos : Nat), pos < 32 →
      (do
        let p ← index IP k
        let b ← index (bitsOf 66 B) (sub8 p 1)
        store (tab 32 acc) pos b) =
      .ok (tab 32 (Function.update acc pos (bit B (IP.getD k 0 - 1)))) := by
    intro k hk acc pos hpos
    have hb := IP_range k hk
    simp only [index_ok (by rw [IP_length]; exact hk : k < IP.length), ok_bind,
      sub8_of_le hb.1 (by omega : IP.getD k 0 < 256)]
    rw [index_bitsOf B (by omega : IP.getD k 0 - 1 < 66)]
    simp only [ok_bind, store_tab _ _ hpos]
  have hl : forLoop 32 (fun j left => do
      let p ← index IP j
      let b ← index (bitsOf 66 B) (sub8 p 1)
      store left j b) (List.replicate 32 0) = .ok (bitsOf 32 (gather 1 (IP.take 32) B)) := by
    rw [replicate_eq_tab, forLoop_fill 32 32 _ (fun j => bit B (IP.getD j 0 - 1))]
    · refine congrArg Except.ok (tab_congr ?_)
      intro j hj
      rw [if_pos hj, bit_gather 1 B (IP.take 32) j hj, IP_take j hj]
    · intro k hk acc
      exact hstep k (by omega) acc k hk
  have hr : loopFrom (fun j right => do
      let p ← index IP j
      let b ← index (bitsOf 66 B) (sub8 p 1)
      store right (j - 32) b) 32 32 (List.replicate 32 0) =
        .ok (bitsOf 32 (gather 1 (IP.drop 32) B)) := by
    rw [replicate_eq_tab]
    refine loopFrom_steps _
      (fun k => tab 32 (fun m => if m + 32 < k then bit B (IP.getD (m + 32) 0 - 1) else 0))
      32 32 _ _ ?_ ?_ ?_
    · exact tab_congr (fun m _ => by rw [if_neg (by omega)])
    · refine tab_congr ?_
      intro j hj
      rw [if_pos (by omega), bit_gather 1 B (IP.drop 32) j hj, IP_drop j hj]
    · intro k hk1 hk2
      beta_reduce
      rw [hstep k (by omega) _ (k - 32) (by omega)]
      refine congrArg Except.ok (tab_congr ?_)
      intro m _
      simp only [Function.update_apply]
      by_cases h1 : m = k - 32
      · have e : m + 32 = k := by omega
        rw [if_pos h1, if_pos (by omega), e]
      · rw [if_neg h1]
        by_cases h2 : m + 32 < k
        · rw [if_pos h2, if_pos (by omega)]
        · rw [if_neg h2, if_neg (by omega)]
  simp only [hl, hr, ok_bind, pure_eq_ok]

theorem pair_congr {α β : Type} {a a' : α} {b b' : β} (ha : a = a') (hb : b = b') :
    (a, b) = (a', b') := by
  rw [ha, hb]

theorem swapHalves_bits (L R : Nat) :
    swapHalves (bitsOf 32 L, bitsOf 32 R) = .ok (bitsOf 32 R, bitsOf 32 L) := by
  unfold swapHalves
  refine forLoop_steps _ (fun k => (tab 32 (fun m => if m < k then bit R m else bit L m),
    tab 32 (fun m => if m < k then bit L m else bit R m))) 32 _ _ ?_ ?_ ?_
  · simp [bitsOf]
  · exact pair_congr (tab_congr (fun m hm => by rw [if_pos hm]))
      (tab_congr (fun m hm => by rw [if_pos hm]))
  · intro k hk
    beta_reduce
    simp only [index_tab _ hk, ok_bind, store_tab _ _ hk, if_neg (Nat.lt_irrefl k), pure_eq_ok]
    refine congrArg Except.ok (pair_congr (tab_congr ?_) (tab_congr ?_)) <;>
    · intro m _
      simp only [Function.update_apply]
      by_cases h1 : m = k
      · rw [if_pos h1, if_pos (by omega), h1]
      · rw [if_neg h1]
        by_cases h2 : m < k
        · rw [if_pos h2, if_pos (by omega)]
        · rw [if_neg h2, if_neg (by omega)]

theorem gather_lt (off x : Nat) : ∀ (tbl : List Nat), gather off tbl x < 2 ^ tbl.length
  | [] => by simp [gather]
  | t :: ts => by
    have ih := gather_lt off x ts
    have hb := bit_le_one x (t - off)
    rw [gather_cons, List.length_cons, Nat.pow_succ]
    omega

theorem storeBlock_bits (L R B : Nat) :
    storeBlock (bitsOf 32 L, bitsOf 32 R) (bitsOf 66 B) =
      .ok (bitsOf 66 (gather 1 FP (L % 2 ^ 32 + 2 ^ 32 * R) + 2 ^ 64 * (B >>> 64))) := by
  unfold storeBlock
  have e : bitsOf 66 B = tab 66 (bit B) := rfl
  rw [e, forLoop_fill 66 64 _
    (fun j => if FP.getD j 0 < 33 then bit L (FP.getD j 0 - 1) else bit R (FP.getD j 0 - 33))]
  · refine congrArg Except.ok (tab_congr ?_)
    intro m _
    have hlt : gather 1 FP (L % 2 ^ 32 + 2 ^ 32 * R) < 2 ^ 64 := gather_lt 1 _ FP
    rw [bit_add_mul _ _ 64 m hlt]
    by_cases hm : m < 64
    · have hb := FP_range m hm
      rw [if_pos hm, if_pos hm, bit_gather 1 _ FP m hm,
        bit_add_mul _ _ 32 _ (Nat.mod_lt _ (by decide))]
      by_cases hp : FP.getD m 0 < 33
      · rw [if_pos hp, if_pos (by omega), bit_mod _ _ _ (by omega)]
      · rw [if_neg hp, if_neg (by omega)]
        congr 1
    · rw [if_neg hm, if_neg hm, bit_shiftRight]
      congr 1
      omega
  · intro k hk acc
    have hb := FP_range k hk
    simp only [index_ok (by rw [FP_length]; exact hk : k < FP.length), ok_bind]
    by_cases hp : FP.getD k 0 < 33
    · rw [if_pos hp, if_pos hp, sub8_of_le hb.1 (by omega : FP.getD k 0 < 256),
        index_bitsOf L (by omega : FP.getD k 0 - 1 < 32)]
      simp only [ok_bind, store_tab _ _ (by omega : k < 66)]
    · rw [if_neg hp, if_neg hp, sub8_of_le (by omega : 33 ≤ FP.getD k 0)
        (by omega : FP.getD k 0 < 256), index_bitsOf R (by omega : FP.getD k 0 - 33 < 32)]
      simp only [ok_bind, store_tab _ _ (by omega : k < 66)]

theorem desEncryptWord_eq (Eb Kws : List Nat) (B : Nat) :
    desEncryptWord Eb Kws B =
      gather 1 FP
        ((roundsWord Eb Kws (gather 1 (IP.take 32) B) (gather 1 (IP.drop 32) B)).2 % 2 ^ 32 +
          2 ^ 32 * (roundsWord Eb Kws (gather 1 (IP.take 32) B) (gather 1 (IP.drop 32) B)).1) +
        2 ^ 64 * (B >>> 64) := rfl

/-- One call of `desEncrypt` on a block of bits, for a salted table with entries
in `1..32` and a key schedule of bits: it returns, with the block of the word
`desEncryptWord`. -/
theorem desEncrypt_bits (Eb Kws : List Nat) (B : Nat) (hE : GoodE Eb) (hK : Kws.length = 16) :
    desEncrypt Eb (Kws.map (bitsOf 48)) (bitsOf 66 B) =
      .ok (bitsOf 66 (desEncryptWord Eb Kws B)) := by
  unfold desEncrypt
  simp only [loadHalves_bits, ok_bind, rounds_bits Eb Kws _ _ hE hK, swapHalves_bits,
    storeBlock_bits, desEncryptWord_eq]

theorem encryptTimes_succ (Eb Kws : List Nat) :
    ∀ (n B : Nat), encryptTimes Eb Kws (n + 1) B = desEncryptWord Eb Kws (encryptTimes Eb Kws n B)
  | 0, _ => rfl
  | n + 1, B => by
    have ih := encryptTimes_succ Eb Kws n (desEncryptWord Eb Kws B)
    exact ih

theorem bitsOf_zero (n : Nat) : List.replicate n 0 = bitsOf n 0 := by
  rw [replicate_eq_tab]
  exact tab_congr (fun j _ => (bit_zero_word j).symm)

theorem encrypt_loop_bits (Eb Kws : List Nat) (n : Nat) (hE : GoodE Eb) (hK : Kws.length = 16) :
    forLoop n (fun _ block => desEncrypt Eb (Kws.map (bitsOf 48)) block) (List.replicate 66 0) =
      .ok (bitsOf 66 (encryptTimes Eb Kws n 0)) := by
  refine forLoop_steps _ (fun k => bitsOf 66 (encryptTimes Eb Kws k 0)) n _ _ ?_ rfl ?_
  · exact bitsOf_zero 66
  · intro k _
    beta_reduce
    rw [desEncrypt_bits Eb Kws _ hE hK, encryptTimes_succ]

/-! ## The key bits and the key schedule -/

theorem keyBits_inner (i c : Nat) (hi : i < 8) (F : Nat → Nat) :
    forLoop 7 (fun j key => store key (i * 8 + j) ((c >>> (6 - j)) &&& 1)) (tab 64 F) =
      .ok (tab 64 (fun m =>
        if m / 8 = i ∧ m % 8 < 7 then (c >>> (6 - m % 8)) &&& 1 else F m)) := by
  refine forLoop_steps _ (fun k => tab 64 (fun m =>
    if m / 8 = i ∧ m % 8 < k then (c >>> (6 - m % 8)) &&& 1 else F m)) 7 _ _ ?_ rfl ?_
  · exact tab_congr (fun m _ => by rw [if_neg (by omega)])
  · intro k hk
    beta_reduce
    rw [store_tab _ _ (by omega : i * 8 + k < 64)]
    refine congrArg Except.ok (tab_congr ?_)
    intro m _
    simp only [Function.update_apply]
    by_cases h1 : m = i * 8 + k
    · have e : m % 8 = k := by omega
      rw [if_pos h1, if_pos (by omega), e]
    · rw [if_neg h1]
      by_cases h2 : m / 8 = i ∧ m % 8 < k
      · rw [if_pos h2, if_pos (by omega)]
      · rw [if_neg h2, if_neg (by omega)]

/-- Step 1 returns, with the key cells `keyList`. -/
theorem keyBits_eq (password : List Nat) : keyBits password = .ok (keyList password) := by
  unfold keyBits
  rw [replicate_eq_tab]
  refine forLoop_steps _ (fun k => tab 64 (fun m =>
    if m / 8 < k ∧ m % 8 < 7 then (password.getD (m / 8) 0 >>> (6 - m % 8)) &&& 1 else 0))
    (min password.length 8) _ _ ?_ rfl ?_
  · exact tab_congr (fun m _ => by rw [if_neg (by omega)])
  · intro k hk
    beta_reduce
    rw [index_ok (by omega : k < password.length)]
    simp only [ok_bind]
    rw [keyBits_inner k _ (by omega)]
    refine congrArg Except.ok (tab_congr ?_)
    intro m _
    by_cases h1 : m / 8 = k ∧ m % 8 < 7
    · rw [if_pos h1, if_pos (by omega), h1.1]
    · rw [if_neg h1]
      by_cases h2 : m / 8 < k ∧ m % 8 < 7
      · rw [if_pos h2, if_pos (by omega)]
      · rw [if_neg h2, if_neg (by omega)]

theorem and_one_le (x : Nat) : x &&& 1 ≤ 1 := by
  rw [Nat.and_one_is_mod]; omega

theorem mem_tab {α : Type} {n : Nat} {g : Nat → α} {x : α} (h : x ∈ tab n g) :
    ∃ i, i < n ∧ g i = x := by
  unfold tab at h
  rcases List.mem_map.mp h with ⟨i, hi, e⟩
  exact ⟨i, List.mem_range.mp hi, e⟩

theorem keyList_length (password : List Nat) : (keyList password).length = 64 := by
  simp [keyList]

theorem keyList_bits (password : List Nat) : ∀ b, b ∈ keyList password → b ≤ 1 := by
  intro b hb
  rcases mem_tab hb with ⟨i, _, e⟩
  rw [← e]
  split
  · exact and_one_le _
  · omega

theorem keyList_eq_bitsOf (password : List Nat) :
    keyList password = bitsOf 64 (pack (keyList password)) := by
  have := bitsOf_pack (keyList password) (keyList_bits password)
  rw [keyList_length] at this
  exact this.symm

theorem PC1_C_length : PC1_C.length = 28 := rfl

theorem PC1_D_length : PC1_D.length = 28 := rfl

theorem PC1_C_range : ∀ j, j < 28 → 1 ≤ PC1_C.getD j 0 ∧ PC1_C.getD j 0 ≤ 64 := by decide

theorem PC1_D_range : ∀ j, j < 28 → 1 ≤ PC1_D.getD j 0 ∧ PC1_D.getD j 0 ≤ 64 := by decide

/-- Step 2 on a key of bits: it returns, with the halves gathered by PC1. -/
theorem permutedChoice1_bits (kw : Nat) :
    permutedChoice1 (bitsOf 64 kw) =
      .ok (bitsOf 28 (gather 1 PC1_C kw), bitsOf 28 (gather 1 PC1_D kw)) := by
  unfold permutedChoice1
  rw [replicate_eq_tab]
  refine forLoop_steps _ (fun k =>
    (tab 28 (fun m => if m < k then bit kw (PC1_C.getD m 0 - 1) else 0),
     tab 28 (fun m => if m < k then bit kw (PC1_D.getD m 0 - 1) else 0))) 28 _ _ ?_ ?_ ?_
  · exact pair_congr (tab_congr (fun m _ => by rw [if_neg (by omega)]))
      (tab_congr (fun m _ => by rw [if_neg (by omega)]))
  · refine pair_congr (tab_congr ?_) (tab_congr ?_)
    · intro m hm
      rw [if_pos hm, bit_gather 1 kw PC1_C m hm]
    · intro m hm
      rw [if_pos hm, bit_gather 1 kw PC1_D m hm]
  · intro k hk
    beta_reduce
    have hc := PC1_C_range k hk
    have hd := PC1_D_range k hk
    simp only [index_ok (by rw [PC1_C_length]; exact hk : k < PC1_C.length),
      index_ok (by rw [PC1_D_length]; exact hk : k < PC1_D.length), ok_bind,
      sub8_of_le hc.1 (by omega : PC1_C.getD k 0 < 256),
      sub8_of_le hd.1 (by omega : PC1_D.getD k 0 < 256)]
    rw [index_bitsOf kw (by omega : PC1_C.getD k 0 - 1 < 64),
      index_bitsOf kw (by omega : PC1_D.getD k 0 - 1 < 64)]
    simp only [ok_bind, store_tab _ _ hk, pure_eq_ok]
    refine congrArg Except.ok (pair_congr (tab_congr ?_) (tab_congr ?_)) <;>
    · intro m _
      simp only [Function.update_apply]
      by_cases h1 : m = k
      · rw [if_pos h1, if_pos (by omega), h1]
      · rw [if_neg h1]
        by_cases h2 : m < k
        · rw [if_pos h2, if_pos (by omega)]
        · rw [if_neg h2, if_neg (by omega)]

theorem rotl28_eq (c : Nat) : rotl28 c = (c >>> 1) % 2 ^ 27 + 2 ^ 27 * (c % 2) := rfl

theorem bit_rotl28 (c m : Nat) (hm : m < 28) :
    bit (rotl28 c) m = if m < 27 then bit c (m + 1) else bit c 0 := by
  rw [rotl28_eq, bit_add_mul _ _ 27 m (Nat.mod_lt _ (by decide))]
  by_cases h : m < 27
  · rw [if_pos h, if_pos h, bit_mod _ _ _ h, bit_shiftRight, Nat.add_comm]
  · have e : m - 27 = 0 := by omega
    rw [if_neg h, if_neg h, e]
    simp [bit]

/-- Lines 180-184 on a half of bits: one left rotation. -/
theorem rotateLeft_bits (c : Nat) : rotateLeft (bitsOf 28 c) = .ok (bitsOf 28 (rotl28 c)) := by
  unfold rotateLeft
  rw [index_bitsOf c (by decide : 0 < 28)]
  simp only [ok_bind]
  have e : copySlice (bitsOf 28 c) ((bitsOf 28 c).drop 1) =
      tab 28 (fun m => if m < 27 then bit c (m + 1) else bit c 27) := by
    apply List.ext_getElem?
    intro i
    unfold copySlice
    have hl : ((bitsOf 28 c).drop 1).length = 27 := by simp [bitsOf_length]
    rw [hl, bitsOf_length, List.take_of_length_le (by omega)]
    simp only [bitsOf, tab_getElem?]
    by_cases hi : i < 27
    · rw [List.getElem?_append_left (by rw [List.length_drop, tab_length]; omega),
        List.getElem?_drop, tab_getElem?, if_pos (by omega), if_pos (by omega), if_pos hi,
        Nat.add_comm]
    · rw [List.getElem?_append_right (by rw [List.length_drop, tab_length]; omega),
        List.getElem?_drop, tab_getElem?, List.length_drop, tab_length]
      by_cases hi2 : i < 28
      · have e1 : 27 + (i - (28 - 1)) = 27 := by omega
        rw [e1, if_pos (by omega), if_pos hi2, if_neg hi]
      · rw [if_neg (by omega), if_neg hi2]
  rw [e, store_tab _ _ (by decide : 27 < 28)]
  refine congrArg Except.ok (tab_congr ?_)
  intro m hm
  simp only [Function.update_apply]
  rw [bit_rotl28 c m hm]
  by_cases h1 : m = 27
  · rw [if_pos h1, if_neg (by omega)]
  · rw [if_neg h1, if_pos (by omega), if_pos (by omega)]

theorem rotTimes_succ : ∀ (n c : Nat), rotTimes (n + 1) c = rotl28 (rotTimes n c)
  | 0, _ => rfl
  | n + 1, c => rotTimes_succ n (rotl28 c)

theorem rotate_loop_bits (n c d : Nat) :
    forLoop n (fun _ CD => do
        let C ← rotateLeft CD.1
        let D ← rotateLeft CD.2
        pure (C, D)) (bitsOf 28 c, bitsOf 28 d) =
      .ok (bitsOf 28 (rotTimes n c), bitsOf 28 (rotTimes n d)) := by
  refine forLoop_steps _ (fun k => (bitsOf 28 (rotTimes k c), bitsOf 28 (rotTimes k d)))
    n _ _ rfl rfl ?_
  intro k _
  beta_reduce
  simp only [rotateLeft_bits, ok_bind, pure_eq_ok, rotTimes_succ]

theorem tab_set {α : Type} {n i : Nat} (g : Nat → α) (v : α) :
    (tab n g).set i v = tab n (Function.update g i v) := by
  apply List.ext_getElem?
  intro j
  simp only [List.getElem?_set, tab_getElem?, tab_length, Function.update_apply]
  by_cases hj : i = j
  · subst hj
    by_cases h : i < n
    · simp [h]
    · simp [h]
  · have : ¬ j = i := fun e => hj e.symm
    simp [hj, this]

theorem index2_tab {n m i j : Nat} (G : Nat → List Nat) (g : Nat → Nat) (hi : i < n)
    (hj : j < m) (hG : G i = tab m g) : index2 (tab n G) i j = .ok (g j) := by
  unfold index2
  rw [tab_getElem?, if_pos hi]
  simp only
  rw [hG, index_tab g hj]

theorem store2_tab {n m i j : Nat} (G : Nat → List Nat) (g : Nat → Nat) (v : Nat) (hi : i < n)
    (hj : j < m) (hG : G i = tab m g) :
    store2 (tab n G) i j v = .ok (tab n (Function.update G i (tab m (Function.update g j v)))) := by
  unfold store2
  rw [tab_getElem?, if_pos hi]
  simp only
  rw [hG, store_tab g v hj]
  simp only
  rw [tab_set]

theorem PC2_C_length : PC2_C.length = 24 := rfl

theorem PC2_D_length : PC2_D.length = 24 := rfl

theorem PC2_C_range : ∀ j, j < 24 → 1 ≤ PC2_C.getD j 0 ∧ PC2_C.getD j 0 ≤ 28 := by decide

theorem PC2_D_range : ∀ j, j < 24 → 29 ≤ PC2_D.getD j 0 ∧ PC2_D.getD j 0 ≤ 56 := by decide

theorem sub8_sub8 {a : Nat} (h1 : 29 ≤ a) (h2 : a < 256) : sub8 (sub8 a 28) 1 = a - 29 := by
  rw [sub8_of_le (by omega) h2, sub8_of_le (by omega) (by omega)]
  omega

/-- Bits of a subkey: the low 24 come from C, the high 24 from D. -/
theorem bit_subkey (c d m : Nat) (hm : m < 48) :
    bit (gather 1 PC2_C c + 2 ^ 24 * gather 29 PC2_D d) m =
      if m < 24 then bit c (PC2_C.getD m 0 - 1) else bit d (PC2_D.getD (m - 24) 0 - 29) := by
  rw [bit_add_mul _ _ 24 m (gather_lt 1 c PC2_C)]
  by_cases h : m < 24
  · rw [if_pos h, if_pos h, bit_gather 1 c PC2_C m h]
  · rw [if_neg h, if_neg h, bit_gather 29 d PC2_D (m - 24) (by rw [PC2_D_length]; omega)]

/-- Lines 186-189 on halves of bits: row `i` of the schedule becomes the subkey. -/
theorem permutedChoice2_bits (c d i : Nat) (G : Nat → List Nat) (g0 : Nat → Nat) (hi : i < 16)
    (hG : G i = tab 48 g0) :
    permutedChoice2 (bitsOf 28 c) (bitsOf 28 d) i (tab 16 G) =
      .ok (tab 16 (Function.update G i
        (bitsOf 48 (gather 1 PC2_C c + 2 ^ 24 * gather 29 PC2_D d)))) := by
  unfold permutedChoice2
  refine forLoop_steps _ (fun k => tab 16 (Function.update G i (tab 48 (fun m =>
    if m % 24 < k then bit (gather 1 PC2_C c + 2 ^ 24 * gather 29 PC2_D d) m else g0 m))))
    24 _ _ ?_ ?_ ?_
  · refine tab_congr ?_
    intro r _
    simp only [Function.update_apply]
    by_cases hr : r = i
    · rw [if_pos hr, hr, hG]
      exact tab_congr (fun m _ => by rw [if_neg (by omega)])
    · rw [if_neg hr]
  · refine tab_congr ?_
    intro r _
    simp only [Function.update_apply]
    by_cases hr : r = i
    · rw [if_pos hr, if_pos hr]
      exact tab_congr (fun m _ => by rw [if_pos (Nat.mod_lt _ (by decide))])
    · rw [if_neg hr, if_neg hr]
  · intro k hk
    beta_reduce
    have hc := PC2_C_range k hk
    have hd := PC2_D_range k hk
    simp only [index_ok (by rw [PC2_C_length]; exact hk : k < PC2_C.length),
      index_ok (by rw [PC2_D_length]; exact hk : k < PC2_D.length), ok_bind,
      sub8_of_le hc.1 (by omega : PC2_C.getD k 0 < 256),
      sub8_sub8 hd.1 (by omega : PC2_D.getD k 0 < 256)]
    rw [index_bitsOf c (by omega : PC2_C.getD k 0 - 1 < 28),
      index_bitsOf d (by omega : PC2_D.getD k 0 - 29 < 28)]
    simp only [ok_bind]
    rw [store2_tab _ _ _ hi (by omega : k < 48) (Function.update_same _ _ _)]
    simp only [ok_bind]
    rw [store2_tab _ _ _ hi (by omega : k + 24 < 48) (Function.update_same _ _ _)]
    simp only [Function.update_idem]
    refine congrArg Except.ok (congrArg (tab 16) (congrArg (Function.update G i) (tab_congr ?_)))
    intro m hm
    simp only [Function.update_apply]
    have hb := bit_subkey c d m hm
    by_cases h1 : m = k + 24
    · have e : m - 24 = k := by omega
      rw [if_pos h1, if_pos (by omega), hb, if_neg (by omega), e]
    · rw [if_neg h1]
      by_cases h2 : m = k
      · rw [if_pos h2, if_pos (by omega), hb, if_pos (by omega), h2]
      · rw [if_neg h2]
        by_cases h3 : m % 24 < k
        · rw [if_pos h3, if_pos (by omega)]
        · rw [if_neg h3, if_neg (by omega)]

theorem shifts_length : shifts.length = 16 := rfl

theorem subkeyWord_eq (c d r : Nat) :
    subkeyWord c d r =
      gather 1 PC2_C (halfAt c (r + 1)) + 2 ^ 24 * gather 29 PC2_D (halfAt d (r + 1)) := rfl

theorem keyWords_length (c d : Nat) : (keyWords c d).length = 16 := by
  simp [keyWords]

theorem keyWords_map (c d : Nat) :
    (keyWords c d).map (bitsOf 48) = tab 16 (fun r => bitsOf 48 (subkeyWord c d r)) := by
  simp [keyWords, tab, List.map_map, Function.comp_def]

/-- Step 3 on halves of bits: it returns, with the sixteen subkeys `keyWords`. -/
theorem keySchedule_bits (c d : Nat) :
    keySchedule (bitsOf 28 c) (bitsOf 28 d) = .ok ((keyWords c d).map (bitsOf 48)) := by
  unfold keySchedule
  have hloop : forLoop 16 (fun i st => do
      let n ← index shifts i
      let CD ← forLoop n (fun _ CD => do
        let C ← rotateLeft CD.1
        let D ← rotateLeft CD.2
        pure (C, D)) (st.1, st.2.1)
      let KS ← permutedChoice2 CD.1 CD.2 i st.2.2
      pure (CD.1, CD.2, KS))
      (bitsOf 28 c, bitsOf 28 d, List.replicate 16 (List.replicate 48 0)) =
      .ok (bitsOf 28 (halfAt c 16), bitsOf 28 (halfAt d 16),
        tab 16 (fun r => bitsOf 48 (subkeyWord c d r))) := by
    refine forLoop_steps _ (fun k => (bitsOf 28 (halfAt c k), bitsOf 28 (halfAt d k),
      tab 16 (fun r => if r < k then bitsOf 48 (subkeyWord c d r) else tab 48 (fun _ => 0))))
      16 _ _ ?_ ?_ ?_
    · refine pair_congr rfl (pair_congr rfl ?_)
      rw [replicate_eq_tab 48, replicate_eq_tab 16]
      exact tab_congr (fun r _ => by rw [if_neg (by omega)])
    · refine pair_congr rfl (pair_congr rfl (tab_congr ?_))
      intro r hr
      rw [if_pos hr]
    · intro k hk
      beta_reduce
      rw [index_ok (by rw [shifts_length]; exact hk : k < shifts.length)]
      simp only [ok_bind, rotate_loop_bits]
      rw [permutedChoice2_bits _ _ k _ (fun _ => 0) hk (by simp only [Nat.lt_irrefl, if_false])]
      simp only [ok_bind, pure_eq_ok]
      refine congrArg Except.ok (pair_congr rfl (pair_congr rfl (tab_congr ?_)))
      intro r _
      simp only [Function.update_apply]
      by_cases h1 : r = k
      · rw [if_pos h1, if_pos (by omega), h1, subkeyWord_eq]
        rfl
      · rw [if_neg h1]
        by_cases h2 : r < k
        · rw [if_pos h2, if_pos (by omega)]
        · rw [if_neg h2, if_neg (by omega)]
  rw [hloop]
  simp only [ok_bind, pure_eq_ok, keyWords_map]

/-! ## The salted table -/

theorem E_length : E.length = 48 := rfl

theorem E_range : ∀ j, j < 48 → 1 ≤ E.getD j 0 ∧ E.getD j 0 ≤ 32 := by decide

theorem and_one_ne_zero_iff (c j : Nat) : ((c >>> j) &&& 1 ≠ 0) ↔ bit c j = 1 := by
  rw [Nat.and_one_is_mod]
  unfold bit
  omega

/-- The table after the first `t` of the twelve conditional exchanges. -/
theorem saltedE_inner (salt : List Nat) (i : Nat) (hi : i < 2) :
    forLoop 6 (fun j Ebits =>
        if (decodeSalt (salt.getD i 0) >>> j) &&& 1 ≠ 0 then do
          let t ← index Ebits (6 * i + j)
          let u ← index Ebits (6 * i + j + 24)
          let Ebits ← store Ebits (6 * i + j) u
          store Ebits (6 * i + j + 24) t
        else pure Ebits)
      (tab 48 (fun m =>
        if m % 24 < 6 * i ∧ bit (decodeSalt (salt.getD (m % 24 / 6) 0)) (m % 6) = 1 then
          E.getD ((m + 24) % 48) 0
        else E.getD m 0)) =
    .ok (tab 48 (fun m =>
        if m % 24 < 6 * (i + 1) ∧ bit (decodeSalt (salt.getD (m % 24 / 6) 0)) (m % 6) = 1 then
          E.getD ((m + 24) % 48) 0
        else E.getD m 0)) := by
  refine forLoop_steps _ (fun k => tab 48 (fun m =>
    if m % 24 < 6 * i + k ∧ bit (decodeSalt (salt.getD (m % 24 / 6) 0)) (m % 6) = 1 then
      E.getD ((m + 24) % 48) 0
    else E.getD m 0)) 6 _ _ rfl rfl ?_
  intro k hk
  beta_reduce
  have e1 : (6 * i + k) % 24 / 6 = i := by omega
  have e2 : (6 * i + k) % 6 = k := by omega
  have e3 : (6 * i + k + 24) % 24 / 6 = i := by omega
  have e4 : (6 * i + k + 24) % 6 = k := by omega
  by_cases hbit : bit (decodeSalt (salt.getD i 0)) k = 1
  · rw [if_pos ((and_one_ne_zero_iff _ _).mpr hbit),
      index_tab _ (by omega : 6 * i + k < 48), index_tab _ (by omega : 6 * i + k + 24 < 48)]
    simp only [ok_bind]
    rw [store_tab _ _ (by omega : 6 * i + k < 48)]
    simp only [ok_bind]
    rw [store_tab _ _ (by omega : 6 * i + k + 24 < 48)]
    refine congrArg Except.ok (tab_congr ?_)
    intro m hm
    simp only [Function.update_apply]
    by_cases h1 : m = 6 * i + k + 24
    · rw [if_pos h1, h1, if_neg (by omega), if_pos ⟨by omega, by rw [e3, e4]; exact hbit⟩]
      congr 1
      omega
    · rw [if_neg h1]
      by_cases h2 : m = 6 * i + k
      · rw [if_pos h2, h2, if_neg (by omega), if_pos ⟨by omega, by rw [e1, e2]; exact hbit⟩]
        congr 1
        omega
      · rw [if_neg h2]
        by_cases h3 : m % 24 < 6 * i + k ∧
            bit (decodeSalt (salt.getD (m % 24 / 6) 0)) (m % 6) = 1
        · rw [if_pos h3, if_pos ⟨by omega, h3.2⟩]
        · rw [if_neg h3, if_neg (fun h => h3 ⟨by omega, h.2⟩)]
  · rw [if_neg (fun h => hbit ((and_one_ne_zero_iff _ _).mp h))]
    refine congrArg Except.ok (tab_congr ?_)
    intro m hm
    by_cases h3 : m % 24 < 6 * i + k ∧
        bit (decodeSalt (salt.getD (m % 24 / 6) 0)) (m % 6) = 1
    · rw [if_pos h3, if_pos ⟨by omega, h3.2⟩]
    · rw [if_neg h3, if_neg]
      intro h
      by_cases h4 : m % 24 = 6 * i + k
      · have e5 : m % 24 / 6 = i := by omega
        have e6 : m % 6 = k := by omega
        rw [e5, e6] at h
        exact hbit h.2
      · exact h3 ⟨by omega, h.2⟩

/-- Steps 4 and 5 return, with the table `saltedTable`, for every salt of two
bytes or more. -/
theorem saltedE_eq (salt : List Nat) (h : 2 ≤ salt.length) :
    saltedE salt = .ok (saltedTable salt) := by
  unfold saltedE
  rw [copySlice_same_length _ _ (by simp [E_length])]
  refine forLoop_steps _ (fun k => tab 48 (fun m =>
    if m % 24 < 6 * k ∧ bit (decodeSalt (salt.getD (m % 24 / 6) 0)) (m % 6) = 1 then
      E.getD ((m + 24) % 48) 0
    else E.getD m 0)) 2 _ _ ?_ rfl ?_
  · have e := eq_tab_getD E
    rw [E_length] at e
    rw [e]
    refine tab_congr ?_
    intro m _
    rw [if_neg (by omega)]
    rw [← e]
  · intro k hk
    beta_reduce
    rw [index_ok (by omega : k < salt.length)]
    simp only [ok_bind]
    exact saltedE_inner salt k hk

theorem saltedTable_good (salt : List Nat) : GoodE (saltedTable salt) := by
  refine ⟨by simp [saltedTable], ?_⟩
  intro j hj
  have e : (saltedTable salt).getD j 0 =
      if j % 24 < 12 ∧ bit (decodeSalt (salt.getD (j % 24 / 6) 0)) (j % 6) = 1 then
        E.getD ((j + 24) % 48) 0
      else E.getD j 0 := by
    rw [List.getD_eq_getElem?_getD, saltedTable, tab_getElem?, if_pos hj]
    rfl
  rw [e]
  split
  · exact E_range _ (Nat.mod_lt _ (by decide))
  · exact E_range j hj

/-! ## The output and the whole of `DESCryptHash` -/

theorem sixBits_bits (B i : Nat) (hi : i < 11) :
    sixBits (bitsOf 66 B) i = .ok (sixWord B i) := by
  unfold sixBits forLoop
  simp only [loopFrom, Nat.zero_add, Nat.reduceAdd, ok_bind, pure_eq_ok,
    index_bitsOf B (by omega : 6 * i + 0 < 66), index_bitsOf B (by omega : 6 * i + 1 < 66),
    index_bitsOf B (by omega : 6 * i + 2 < 66), index_bitsOf B (by omega : 6 * i + 3 < 66),
    index_bitsOf B (by omega : 6 * i + 4 < 66), index_bitsOf B (by omega : 6 * i + 5 < 66)]
  rfl

/-- Step 8 on a block of bits: it returns, with the thirteen bytes `hashOf`. -/
theorem formatOutput_bits (salt : List Nat) (B : Nat) (h : 2 ≤ salt.length) :
    formatOutput salt (bitsOf 66 B) = .ok (hashOf salt B) := by
  unfold formatOutput
  rw [index_ok (by omega : 0 < salt.length), index_ok (by omega : 1 < salt.length),
    replicate_eq_tab]
  simp only [ok_bind]
  rw [store_tab _ _ (by decide : 0 < 13)]
  simp only [ok_bind]
  rw [store_tab _ _ (by decide : 1 < 13)]
  simp only [ok_bind]
  refine forLoop_steps _ (fun k => tab 13 (fun m =>
    if m = 0 then salt.getD 0 0
    else if m = 1 then salt.getD 1 0
    else if m < k + 2 then encodeChar (sixWord B (m - 2)) else 0)) 11 _ _ ?_ ?_ ?_
  · refine tab_congr ?_
    intro m _
    simp only [Function.update_apply]
    by_cases h1 : m = 1
    · rw [if_pos h1, if_neg (by omega), if_pos h1]
    · rw [if_neg h1, if_neg h1]
      by_cases h0 : m = 0
      · rw [if_pos h0, if_pos h0]
      · rw [if_neg h0, if_neg h0, if_neg (by omega)]
  · refine tab_congr ?_
    intro m hm
    by_cases h0 : m = 0
    · rw [if_pos h0, if_pos h0]
    · rw [if_neg h0, if_neg h0]
      by_cases h1 : m = 1
      · rw [if_pos h1, if_pos h1]
      · rw [if_neg h1, if_neg h1, if_pos (by omega)]
  · intro k hk
    beta_reduce
    rw [sixBits_bits B k hk]
    simp only [ok_bind]
    rw [store_tab _ _ (by omega : k + 2 < 13)]
    refine congrArg Except.ok (tab_congr ?_)
    intro m _
    simp only [Function.update_apply]
    by_cases h2 : m = k + 2
    · have e : m - 2 = k := by omega
      rw [if_pos h2, if_neg (by omega), if_neg (by omega), if_pos (by omega), e]
    · rw [if_neg h2]
      by_cases h0 : m = 0
      · rw [if_pos h0, if_pos h0]
      · rw [if_neg h0, if_neg h0]
        by_cases h1 : m = 1
        · rw [if_pos h1, if_pos h1]
        · rw [if_neg h1, if_neg h1]
          by_cases h3 : m < k + 2
          · rw [if_pos h3, if_pos (by omega)]
          · rw [if_neg h3, if_neg (by omega)]

/-- Lines 11-27, without the loop. -/
theorem validateSalt_eq (salt : List Nat) :
    validateSalt salt =
      if salt.length < 2 then .error .saltLength
      else if isValidChar (salt.getD 0 0) = true ∧ isValidChar (salt.getD 1 0) = true then .ok ()
      else .error .invalidSalt := by
  unfold validateSalt
  by_cases h : salt.length < 2
  · rw [if_pos h, if_pos h]
  · rw [if_neg h, if_neg h]
    unfold forLoop
    simp only [loopFrom, Nat.zero_add, index_ok (by omega : 0 < salt.length),
      index_ok (by omega : 1 < salt.length), ok_bind, pure_eq_ok]
    by_cases h0 : isValidChar (salt.getD 0 0) = true
    · by_cases h1 : isValidChar (salt.getD 1 0) = true
      · rw [if_pos h0, if_pos h1, if_pos ⟨h0, h1⟩]
      · have hc : ¬ (isValidChar (salt.getD 0 0) = true ∧ isValidChar (salt.getD 1 0) = true) :=
          fun hh => h1 hh.2
        rw [if_pos h0, if_neg h1, if_neg hc]
    · have hc : ¬ (isValidChar (salt.getD 0 0) = true ∧ isValidChar (salt.getD 1 0) = true) :=
        fun hh => h0 hh.1
      rw [if_neg h0, if_neg hc]

/-- The salts `DESCryptHash` accepts: two bytes or more, the first two among
the 64 bytes of `validChars`. -/
theorem validateSalt_ok (salt : List Nat) (h : 2 ≤ salt.length)
    (h0 : isValidChar (salt.getD 0 0) = true) (h1 : isValidChar (salt.getD 1 0) = true) :
    validateSalt salt = .ok () := by
  rw [validateSalt_eq, if_neg (by omega), if_pos ⟨h0, h1⟩]

/-- For an accepted salt, `DESCryptHash` returns, and what it returns is the
encoding of the block word after 25 encryptions. -/
theorem DESCryptHash_valid (password salt : List Nat) (h : 2 ≤ salt.length)
    (h0 : isValidChar (salt.getD 0 0) = true) (h1 : isValidChar (salt.getD 1 0) = true) :
    DESCryptHash password salt = .ok (hashOf salt (hashWord password salt)) := by
  unfold DESCryptHash
  rw [validateSalt_ok salt h h0 h1, keyBits_eq, keyList_eq_bitsOf]
  simp only [ok_bind, permutedChoice1_bits, keySchedule_bits, saltedE_eq salt h]
  rw [encrypt_loop_bits _ _ 25 (saltedTable_good salt) (keyWords_length _ _)]
  simp only [ok_bind]
  rw [formatOutput_bits salt _ h]
  unfold hashWord
  exact congrArg Except.ok rfl

/-- The result of `DESCryptHash` in every case. -/
theorem DESCryptHash_eq (password salt : List Nat) :
    DESCryptHash password salt =
      if salt.length < 2 then .error .saltLength
      else if isValidChar (salt.getD 0 0) = true ∧ isValidChar (salt.getD 1 0) = true then
        .ok (hashOf salt (hashWord password salt))
      else .error .invalidSalt := by
  by_cases h : salt.length < 2
  · rw [if_pos h]
    unfold DESCryptHash
    rw [validateSalt_eq, if_pos h]
    simp only [error_bind]
  · rw [if_neg h]
    by_cases hv : isValidChar (salt.getD 0 0) = true ∧ isValidChar (salt.getD 1 0) = true
    · rw [if_pos hv]
      exact DESCryptHash_valid password salt (by omega) hv.1 hv.2
    · rw [if_neg hv]
      unfold DESCryptHash
      rw [validateSalt_eq, if_neg h, if_neg hv]
      simp only [error_bind]

/-! ## The alphabet -/

theorem validChars_mod : ∀ c, c ∈ validChars → InAlphabet (c % 256) := by decide

theorem isValidChar_of_alphabet : ∀ b, b < 123 → InAlphabet b → isValidChar b = true := by decide

/-- The search of lines 17-23 succeeds exactly on the 64 bytes of the alphabet. -/
theorem isValidChar_iff (b : Nat) : isValidChar b = true ↔ InAlphabet b := by
  constructor
  · intro h
    unfold isValidChar at h
    rcases List.any_eq_true.mp h with ⟨c, hc, e⟩
    have e' : b = c % 256 := by simpa using e
    rw [e']
    exact validChars_mod c hc
  · intro h
    have hb : b < 123 := by
      unfold InAlphabet at h
      omega
    exact isValidChar_of_alphabet b hb h

theorem sixOf_lt : ∀ b0, b0 < 2 → ∀ b1, b1 < 2 → ∀ b2, b2 < 2 → ∀ b3, b3 < 2 → ∀ b4, b4 < 2 →
    ∀ b5, b5 < 2 → sixOf b0 b1 b2 b3 b4 b5 < 64 := by decide

theorem bit_lt_two (w j : Nat) : bit w j < 2 := by
  have := bit_le_one w j
  omega

theorem sixWord_lt (B i : Nat) : sixWord B i < 64 :=
  sixOf_lt _ (bit_lt_two _ _) _ (bit_lt_two _ _) _ (bit_lt_two _ _) _ (bit_lt_two _ _) _
    (bit_lt_two _ _) _ (bit_lt_two _ _)

/-- On six-bit values the `uint8` encoder does not wrap around and lands in
the alphabet. -/
theorem encodeChar_alphabet : ∀ v, v < 64 → encodeChar v = encodePlain v ∧ InAlphabet (encodeChar v) := by
  decide

/-! ## The shape of the result -/

theorem hashOf_length (salt : List Nat) (B : Nat) : (hashOf salt B).length = 13 := by
  simp [hashOf]

theorem hashOf_getD (salt : List Nat) (B i : Nat) (hi : i < 13) :
    (hashOf salt B).getD i 0 =
      if i = 0 then salt.getD 0 0
      else if i = 1 then salt.getD 1 0
      else encodeChar (sixWord B (i - 2)) := by
  rw [List.getD_eq_getElem?_getD, hashOf, tab_getElem?, if_pos hi]
  rfl

theorem hashOf_congr (salt salt' : List Nat) (B : Nat) (h0 : salt.getD 0 0 = salt'.getD 0 0)
    (h1 : salt.getD 1 0 = salt'.getD 1 0) : hashOf salt B = hashOf salt' B := by
  unfold hashOf
  rw [h0, h1]

theorem saltedTable_congr (salt salt' : List Nat) (h0 : salt.getD 0 0 = salt'.getD 0 0)
    (h1 : salt.getD 1 0 = salt'.getD 1 0) : saltedTable salt = saltedTable salt' := by
  unfold saltedTable
  refine tab_congr ?_
  intro m _
  have e : m % 24 < 12 → salt.getD (m % 24 / 6) 0 = salt'.getD (m % 24 / 6) 0 := by
    intro hm
    have : m % 24 / 6 = 0 ∨ m % 24 / 6 = 1 := by omega
    rcases this with h | h <;> rw [h] <;> assumption
  by_cases hm : m % 24 < 12
  · rw [e hm]
  · rw [if_neg (fun hh => hm hh.1), if_neg (fun hh => hm hh.1)]

theorem hashWord_congr (password salt salt' : List Nat) (h0 : salt.getD 0 0 = salt'.getD 0 0)
    (h1 : salt.getD 1 0 = salt'.getD 1 0) :
    hashWord password salt = hashWord password salt' := by
  unfold hashWord
  rw [saltedTable_congr salt salt' h0 h1]

/-- What `DESCryptHash` returns when it returns. -/
theorem DESCryptHash_ok {password salt h : List Nat} (e : DESCryptHash password salt = .ok h) :
    2 ≤ salt.length ∧ isValidChar (salt.getD 0 0) = true ∧ isValidChar (salt.getD 1 0) = true ∧
      h = hashOf salt (hashWord password salt) := by
  rw [DESCryptHash_eq] at e
  by_cases h2 : salt.length < 2
  · rw [if_pos h2] at e
    cases e
  · rw [if_neg h2] at e
    by_cases hv : isValidChar (salt.getD 0 0) = true ∧ isValidChar (salt.getD 1 0) = true
    · rw [if_pos hv] at e
      injection e with e
      exact ⟨by omega, hv.1, hv.2, e.symm⟩
    · rw [if_neg hv] at e
      cases e

/-! ## `DESPasswordVerify` -/

theorem cryptPrefix_eq : cryptPrefix = [123, 67, 82, 89, 80, 84, 125] := by decide

theorem cryptPrefix_length : cryptPrefix.length = 7 := by decide

theorem hasPrefix_iff (s p : List Nat) : hasPrefix s p = true ↔ p <+: s := by
  unfold hasPrefix
  rw [Bool.and_eq_true, decide_eq_true_iff, decide_eq_true_iff, List.prefix_iff_eq_take]
  constructor
  · intro h
    exact h.2.symm
  · intro h
    refine ⟨?_, h.symm⟩
    have := congrArg List.length h
    rw [List.length_take] at this
    omega

theorem stripCrypt_pos {h : List Nat} (hp : cryptPrefix <+: h) :
    stripCrypt h = h.drop 7 := by
  rw [stripCrypt, if_pos hp, cryptPrefix_length]

theorem stripCrypt_neg {h : List Nat} (hp : ¬ cryptPrefix <+: h) :
    stripCrypt h = h := by
  rw [stripCrypt, if_neg hp]

/-- The body of `DESPasswordVerify`, in terms of the stripped string. -/
theorem verifyWith_eq (hash : List Nat → List Nat → Except Failure (List Nat))
    (p h : List Nat) :
    verifyWith hash p h =
      if (stripCrypt h).length ≠ 13 then .error .hashLength
      else hash p ((stripCrypt h).take 2) >>= fun computed =>
        if computed ≠ stripCrypt h then .error .mismatch else .ok () := by
  unfold verifyWith
  have tail : ∀ x : List Nat,
      (if x.length ≠ 13 then (Except.error Failure.hashLength : Except Failure Unit)
        else do
          let salt ← sliceTo x 2
          let computed ← hash p salt
          if computed ≠ x then Except.error Failure.mismatch else pure ()) =
      if x.length ≠ 13 then .error .hashLength
      else hash p (x.take 2) >>= fun computed =>
        if computed ≠ x then .error .mismatch else .ok () := by
    intro x
    by_cases hl : x.length ≠ 13
    · rw [if_pos hl, if_pos hl]
    · rw [if_neg hl, if_neg hl, sliceTo, if_pos (by omega)]
      simp only [ok_bind, pure_eq_ok]
  by_cases hp : cryptPrefix <+: h
  · have hl : 7 ≤ h.length := by
      have := hp.length_le
      rw [cryptPrefix_length] at this
      exact this
    simp only [(hasPrefix_iff _ _).mpr hp, if_true, sliceFrom, if_pos hl, ok_bind]
    rw [stripCrypt_pos hp]
    exact tail _
  · have hb : ¬ hasPrefix h cryptPrefix = true := fun hh => hp ((hasPrefix_iff _ _).mp hh)
    simp only [hb, if_false, pure_eq_ok, ok_bind]
    rw [stripCrypt_neg hp]
    exact tail _

/-- The function `DESPasswordVerify`, in terms of the stripped string. -/
theorem DESPasswordVerify_eq (p h : List Nat) :
    DESPasswordVerify p h =
      if (stripCrypt h).length ≠ 13 then .error .hashLength
      else DESCryptHash p ((stripCrypt h).take 2) >>= fun computed =>
        if computed ≠ stripCrypt h then .error .mismatch else .ok () :=
  verifyWith_eq DESCryptHash p h

theorem head_of_cryptPrefix {h : List Nat} (hp : cryptPrefix <+: h) : h.getD 0 0 = 123 := by
  rcases hp with ⟨t, rfl⟩
  rw [cryptPrefix_eq]
  rfl

theorem not_alphabet_brace : ¬ InAlphabet 123 := by decide

theorem hashOf_take_two (salt : List Nat) (B : Nat) :
    (hashOf salt B).take 2 = [salt.getD 0 0, salt.getD 1 0] := rfl

/-- Verification of a password against what `DESCryptHash` returned for it. -/
theorem verify_hashOf (p s : List Nat) (h0 : InAlphabet (s.getD 0 0))
    (h1 : InAlphabet (s.getD 1 0)) (p' : List Nat) :
    DESPasswordVerify p' (hashOf s (hashWord p s)) =
      if hashOf s (hashWord p' s) ≠ hashOf s (hashWord p s) then .error .mismatch else .ok () := by
  have hnp : ¬ cryptPrefix <+: hashOf s (hashWord p s) := by
    intro hp
    have e := head_of_cryptPrefix hp
    rw [hashOf_getD _ _ 0 (by decide), if_pos rfl] at e
    rw [e] at h0
    exact not_alphabet_brace h0
  rw [DESPasswordVerify_eq, stripCrypt_neg hnp, hashOf_length,
    if_neg (fun hh => hh rfl), hashOf_take_two]
  have e0 : [s.getD 0 0, s.getD 1 0].getD 0 0 = s.getD 0 0 := rfl
  have e1 : [s.getD 0 0, s.getD 1 0].getD 1 0 = s.getD 1 0 := rfl
  rw [DESCryptHash_valid p' [s.getD 0 0, s.getD 1 0] (by simp)
    (by rw [e0]; exact (isValidChar_iff _).mpr h0) (by rw [e1]; exact (isValidChar_iff _).mpr h1),
    hashOf_congr _ s _ e0 e1, hashWord_congr p' _ s e0 e1]
  simp only [ok_bind]

/-! ## Properties of the two entry points -/

/-- C1. Round trip: for every password and every salt of two bytes or more
whose first two bytes are in the alphabet `./0-9A-Za-z`, `DESCryptHash`
succeeds with some `h`, and `DESPasswordVerify` of the same password against
`h` returns nil. -/
theorem round_trip (p s : List Nat) (hlen : 2 ≤ s.length) (h0 : InAlphabet (s.getD 0 0))
    (h1 : InAlphabet (s.getD 1 0)) :
    ∃ h, DESCryptHash p s = .ok h ∧ DESPasswordVerify p h = .ok () := by
  refine ⟨hashOf s (hashWord p s), ?_, ?_⟩
  · exact DESCryptHash_valid p s hlen ((isValidChar_iff _).mpr h0) ((isValidChar_iff _).mpr h1)
  · rw [verify_hashOf p s h0 h1 p, if_neg (fun hh => hh rfl)]

theorem round_trip_witness :
    2 ≤ (ascii "ab").length ∧ InAlphabet ((ascii "ab").getD 0 0) ∧
      InAlphabet ((ascii "ab").getD 1 0) ∧
      ∃ h, DESCryptHash (ascii "abc123") (ascii "ab") = .ok h ∧
        DESPasswordVerify (ascii "abc123") h = .ok () :=
  ⟨by decide, by decide, by decide,
    round_trip (ascii "abc123") (ascii "ab") (by decide) (by decide) (by decide)⟩

/-- C3. `DESCryptHash` fails with the salt-length error exactly when the salt
has fewer than two bytes, with the invalid-salt error exactly when the salt has
two bytes or more and one of its first two is outside the alphabet, and it
succeeds in every other case, whatever the password. -/
theorem hash_errors (p s : List Nat) :
    (DESCryptHash p s = .error .saltLength ↔ s.length < 2) ∧
    (DESCryptHash p s = .error .invalidSalt ↔
      2 ≤ s.length ∧ (¬ InAlphabet (s.getD 0 0) ∨ ¬ InAlphabet (s.getD 1 0))) ∧
    ((∃ h, DESCryptHash p s = .ok h) ↔
      2 ≤ s.length ∧ InAlphabet (s.getD 0 0) ∧ InAlphabet (s.getD 1 0)) ∧
    ((∃ h, DESCryptHash p s = .ok h) ↔ ∃ h, DESCryptHash [] s = .ok h) := by
  by_cases h2 : s.length < 2
  · have key : ∀ q : List Nat, DESCryptHash q s = .error .saltLength := by
      intro q
      rw [DESCryptHash_eq, if_pos h2]
    rw [key p, key []]
    exact ⟨⟨fun _ => h2, fun _ => rfl⟩, ⟨fun e => (by cases e), fun hh => (by omega)⟩,
      ⟨fun ⟨_, e⟩ => (by cases e), fun hh => (by omega)⟩,
      ⟨fun ⟨_, e⟩ => (by cases e), fun ⟨_, e⟩ => (by cases e)⟩⟩
  · by_cases hv : InAlphabet (s.getD 0 0) ∧ InAlphabet (s.getD 1 0)
    · have key : ∀ q : List Nat, DESCryptHash q s = .ok (hashOf s (hashWord q s)) := by
        intro q
        exact DESCryptHash_valid q s (by omega) ((isValidChar_iff _).mpr hv.1)
          ((isValidChar_iff _).mpr hv.2)
      rw [key p, key []]
      refine ⟨⟨fun e => (by cases e), fun hh => absurd hh h2⟩,
        ⟨fun e => (by cases e), fun hh => ?_⟩,
        ⟨fun _ => ⟨by omega, hv.1, hv.2⟩, fun _ => ⟨_, rfl⟩⟩,
        ⟨fun _ => ⟨_, rfl⟩, fun _ => ⟨_, rfl⟩⟩⟩
      rcases hh.2 with h | h
      · exact absurd hv.1 h
      · exact absurd hv.2 h
    · have hv' : ¬ (isValidChar (s.getD 0 0) = true ∧ isValidChar (s.getD 1 0) = true) :=
        fun hh => hv ⟨(isValidChar_iff _).mp hh.1, (isValidChar_iff _).mp hh.2⟩
      have key : ∀ q : List Nat, DESCryptHash q s = .error .invalidSalt := by
        intro q
        rw [DESCryptHash_eq, if_neg h2, if_neg hv']
      have hor : ¬ InAlphabet (s.getD 0 0) ∨ ¬ InAlphabet (s.getD 1 0) := by
        by_cases h0 : InAlphabet (s.getD 0 0)
        · exact Or.inr (fun h1 => hv ⟨h0, h1⟩)
        · exact Or.inl h0
      rw [key p, key []]
      exact ⟨⟨fun e => (by cases e), fun hh => absurd hh h2⟩,
        ⟨fun _ => ⟨by omega, hor⟩, fun _ => rfl⟩,
        ⟨fun ⟨_, e⟩ => (by cases e), fun hh => absurd ⟨hh.2.1, hh.2.2⟩ hv⟩,
        ⟨fun ⟨_, e⟩ => (by cases e), fun ⟨_, e⟩ => (by cases e)⟩⟩

/-- C4. Whenever `DESCryptHash` returns a string for a password and a salt,
the string has exactly 13 bytes and its first two bytes are the first two bytes
of the salt. -/
theorem hash_shape (p s h : List Nat) (e : DESCryptHash p s = .ok h) :
    h.length = 13 ∧ h.take 2 = s.take 2 ∧ h.getD 0 0 = s.getD 0 0 ∧ h.getD 1 0 = s.getD 1 0 := by
  rcases DESCryptHash_ok e with ⟨hlen, _, _, rfl⟩
  refine ⟨hashOf_length _ _, ?_, ?_, ?_⟩
  · rw [hashOf_take_two]
    match s, hlen with
    | a :: b :: t, _ => rfl
  · rw [hashOf_getD _ _ 0 (by decide), if_pos rfl]
  · rw [hashOf_getD _ _ 1 (by decide), if_neg (by decide), if_pos rfl]

/-- C5. Whenever `DESCryptHash` returns a string, each of its bytes at
positions 2..12 is the character of a six-bit value, computed without
wrap-around of the `uint8` arithmetic, and is one of the 64 bytes of the
alphabet. -/
theorem hash_tail_alphabet (p s h : List Nat) (e : DESCryptHash p s = .ok h) (i : Nat)
    (hi : 2 ≤ i) (hi' : i < 13) :
    InAlphabet (h.getD i 0) ∧
      ∃ v, v < 64 ∧ h.getD i 0 = encodeChar v ∧ encodeChar v = encodePlain v := by
  rcases DESCryptHash_ok e with ⟨_, _, _, rfl⟩
  rw [hashOf_getD _ _ i hi', if_neg (by omega), if_neg (by omega)]
  have hv := sixWord_lt (hashWord p s) (i - 2)
  have ha := encodeChar_alphabet _ hv
  exact ⟨ha.2, _, hv, rfl, ha.1⟩

/-! ## The password enters through its key cells only -/

theorem hash_congr_key (p p' s : List Nat) (h : keyList p = keyList p') :
    DESCryptHash p s = DESCryptHash p' s := by
  rw [DESCryptHash_eq, DESCryptHash_eq, hashWord, hashWord, h]

theorem keyList_congr (p p' : List Nat) (hl : min p.length 8 = min p'.length 8)
    (hb : ∀ i, i < min p.length 8 → ∀ k, k < 7 →
      (p.getD i 0 >>> (6 - k)) &&& 1 = (p'.getD i 0 >>> (6 - k)) &&& 1) :
    keyList p = keyList p' := by
  unfold keyList
  refine tab_congr ?_
  intro m _
  rw [← hl]
  by_cases hc : m / 8 < min p.length 8 ∧ m % 8 < 7
  · rw [if_pos hc, if_pos hc, hb _ hc.1 _ hc.2]
  · rw [if_neg hc, if_neg hc]

theorem getD_take (l : List Nat) (n i : Nat) (h : i < n) : (l.take n).getD i 0 = l.getD i 0 := by
  rw [List.getD_eq_getElem?_getD, List.getD_eq_getElem?_getD, List.getElem?_take_of_lt h]

theorem keyList_take (p : List Nat) : keyList p = keyList (p.take 8) := by
  apply keyList_congr
  · rw [List.length_take]
    omega
  · intro i hi k _
    rw [getD_take p 8 i (by omega)]

theorem bit_and_127 (c k : Nat) (hk : k < 7) : bit (c &&& 127) k = bit c k := by
  have e : (127 : Nat) = 2 ^ 7 - 1 := rfl
  rw [e, Nat.and_pow_two_sub_one_eq_mod, bit_mod _ _ _ hk]

theorem shift_and_127 (c k : Nat) (hk : k < 7) :
    (c >>> (6 - k)) &&& 1 = ((c &&& 127) >>> (6 - k)) &&& 1 := by
  have h := bit_and_127 c (6 - k) (by omega)
  unfold bit at h
  rw [Nat.and_one_is_mod, Nat.and_one_is_mod, h]

/-- C6. Truncation: the result for a password of eight bytes or more is the
result for its first eight bytes, and two passwords with the same first eight
bytes have the same result, for every salt: bytes at index 8 and beyond never
influence the result. -/
theorem truncation (s p : List Nat) :
    (8 ≤ p.length → DESCryptHash p s = DESCryptHash (p.take 8) s) ∧
    (∀ p' : List Nat, p.take 8 = p'.take 8 → DESCryptHash p s = DESCryptHash p' s) := by
  refine ⟨fun _ => hash_congr_key _ _ s (keyList_take p), ?_⟩
  intro p' h
  refine hash_congr_key _ _ s ?_
  rw [keyList_take p, keyList_take p', h]

theorem truncation_witness :
    8 ≤ (ascii "longerpassword").length ∧
      DESCryptHash (ascii "longerpassword") (ascii "AA") =
        DESCryptHash ((ascii "longerpassword").take 8) (ascii "AA") ∧
      (ascii "longerpassword").take 8 = (ascii "longerpaXYZ").take 8 ∧
      DESCryptHash (ascii "longerpassword") (ascii "AA") =
        DESCryptHash (ascii "longerpaXYZ") (ascii "AA") :=
  ⟨by decide, (truncation (ascii "AA") (ascii "longerpassword")).1 (by decide), by decide,
    (truncation (ascii "AA") (ascii "longerpassword")).2 (ascii "longerpaXYZ") (by decide)⟩

/-- C7. The top bit of every password byte is ignored: two passwords of the
same length, the second having at every index below 8 the byte of the first
with bit 7 cleared, have the same result for every salt. -/
theorem top_bit_ignored (s p p' : List Nat) (hl : p.length = p'.length)
    (hb : ∀ i, i < 8 → i < p.length → p'.getD i 0 = p.getD i 0 &&& 127) :
    DESCryptHash p s = DESCryptHash p' s := by
  refine hash_congr_key _ _ s (keyList_congr p p' (by rw [hl]) ?_)
  intro i hi k hk
  rw [hb i (by omega) (by omega)]
  exact shift_and_127 _ k hk

theorem top_bit_ignored_witness :
    [225, 98, 227].length = [97, 98, 99].length ∧
      (∀ i, i < 8 → i < [225, 98, 227].length →
        [97, 98, 99].getD i 0 = [225, 98, 227].getD i 0 &&& 127) ∧
      DESCryptHash [225, 98, 227] (ascii "ab") = DESCryptHash [97, 98, 99] (ascii "ab") :=
  ⟨by decide, by decide, top_bit_ignored (ascii "ab") [225, 98, 227] [97, 98, 99] (by decide)
    (by decide)⟩

/-! ## Concrete values -/

set_option maxRecDepth 1000000 in
/-- The hash of the empty password under the salt `xy`. -/
theorem hash_empty_xy : DESCryptHash [] (ascii "xy") = .ok (ascii "xyw1.V0rbu5mQ") := by
  rw [DESCryptHash_eq]
  decide!

theorem hash_shape_witness :
    DESCryptHash [] (ascii "xy") = .ok (ascii "xyw1.V0rbu5mQ") ∧
      (ascii "xyw1.V0rbu5mQ").length = 13 ∧
      (ascii "xyw1.V0rbu5mQ").take 2 = (ascii "xy").take 2 ∧
      (ascii "xyw1.V0rbu5mQ").getD 0 0 = (ascii "xy").getD 0 0 ∧
      (ascii "xyw1.V0rbu5mQ").getD 1 0 = (ascii "xy").getD 1 0 :=
  ⟨hash_empty_xy, hash_shape [] (ascii "xy") (ascii "xyw1.V0rbu5mQ") hash_empty_xy⟩

theorem hash_tail_alphabet_witness :
    DESCryptHash [] (ascii "xy") = .ok (ascii "xyw1.V0rbu5mQ") ∧ 2 ≤ 12 ∧ 12 < 13 ∧
      InAlphabet ((ascii "xyw1.V0rbu5mQ").getD 12 0) ∧
      ∃ v, v < 64 ∧ (ascii "xyw1.V0rbu5mQ").getD 12 0 = encodeChar v ∧
        encodeChar v = encodePlain v :=
  ⟨hash_empty_xy, by decide, by decide,
    hash_tail_alphabet [] (ascii "xy") (ascii "xyw1.V0rbu5mQ") hash_empty_xy 12 (by decide)
      (by decide)⟩

set_option maxRecDepth 1000000 in
/-- C2. `DESCryptHash` reproduces the eight reference vectors byte for byte,
each call returning no error. -/
theorem reference_vectors :
    DESCryptHash (ascii "SecretPassword123") (ascii "rq") = .ok (ascii "rq/N3gSWdwWeA") ∧
    DESCryptHash (ascii "TestPassword123") (ascii "pn") = .ok (ascii "pnA3klLBJ.CRU") ∧
    DESCryptHash (ascii "WrongPassword") (ascii "rq") = .ok (ascii "rqnO5.MEhjGLo") ∧
    DESCryptHash (ascii "abc123") (ascii "ab") = .ok (ascii "ab3z4hnHA5WdU") ∧
    DESCryptHash (ascii "") (ascii "xy") = .ok (ascii "xyw1.V0rbu5mQ") ∧
    DESCryptHash (ascii "!@#$%^&*()") (ascii "zz") = .ok (ascii "zzMEAJ1GZvANE") ∧
    DESCryptHash (ascii "longerpassword") (ascii "AA") = .ok (ascii "AAt4vbXD0zBFE") ∧
    DESCryptHash (ascii "short") (ascii "12") = .ok (ascii "128Q9Am4iRrT6") := by
  refine ⟨?_, ?_, ?_, ?_, ?_, ?_, ?_, ?_⟩ <;>
  · rw [DESCryptHash_eq]
    decide!

/-! ## Properties of `DESPasswordVerify` -/

theorem stripCrypt_length (h : List Nat) :
    (stripCrypt h).length = if cryptPrefix <+: h then h.length - 7 else h.length := by
  by_cases hp : cryptPrefix <+: h
  · rw [stripCrypt_pos hp, if_pos hp, List.length_drop]
  · rw [stripCrypt_neg hp, if_neg hp]

/-- A stored string of 13 bytes after stripping never gives the length error. -/
theorem verify_not_hashLength (p h : List Nat) (hl : (stripCrypt h).length = 13) :
    DESPasswordVerify p h ≠ .error .hashLength := by
  rw [DESPasswordVerify_eq, if_neg (fun hh => hh hl), DESCryptHash_eq]
  intro e
  split at e
  · cases e
  · split at e
    · simp only [ok_bind] at e
      split at e <;> cases e
    · cases e

/-- C8. `DESPasswordVerify` returns nil exactly when the stored string, after
one optional leading `{CRYPT}` is removed, has 13 bytes and `DESCryptHash` of
the password under its first two bytes succeeds with that very string; and the
stored string `xy1xQWzQ9Qf8w` of the tests does not verify the empty password. -/
theorem verify_iff :
    (∀ p h : List Nat, DESPasswordVerify p h = .ok () ↔
      ((stripCrypt h).length = 13 ∧
        DESCryptHash p ((stripCrypt h).take 2) = .ok (stripCrypt h))) ∧
    DESPasswordVerify (ascii "") (ascii "xy1xQWzQ9Qf8w") = .error .mismatch := by
  constructor
  · intro p h
    rw [DESPasswordVerify_eq]
    by_cases hl : (stripCrypt h).length ≠ 13
    · rw [if_pos hl]
      exact ⟨fun e => (by cases e), fun hh => absurd hh.1 hl⟩
    · rw [if_neg hl]
      have hl' : (stripCrypt h).length = 13 := by omega
      cases hc : DESCryptHash p ((stripCrypt h).take 2) with
      | error e =>
        simp only [error_bind]
        exact ⟨fun e => (by cases e), fun hh => (by cases hh.2)⟩
      | ok c =>
        simp only [ok_bind]
        by_cases hne : c ≠ stripCrypt h
        · rw [if_pos hne]
          refine ⟨fun e => (by cases e), fun hh => ?_⟩
          injection hh.2 with e
          exact absurd e hne
        · rw [if_neg hne]
          have e : c = stripCrypt h := by
            by_cases h' : c = stripCrypt h
            · exact h'
            · exact absurd h' hne
          exact ⟨fun _ => ⟨hl', by rw [e]⟩, fun _ => rfl⟩
  · have hnp : ¬ cryptPrefix <+: ascii "xy1xQWzQ9Qf8w" := by decide
    have ht : (ascii "xy1xQWzQ9Qf8w").take 2 = ascii "xy" := by decide
    rw [DESPasswordVerify_eq, stripCrypt_neg hnp, if_neg (by decide), ht]
    have e : ascii "" = [] := by decide
    rw [e, hash_empty_xy]
    simp only [ok_bind]
    rw [if_pos (by decide)]

/-- C9. `DESPasswordVerify` fails with the hash-length error exactly when the
stored string, after one optional leading `{CRYPT}` is removed, does not have
13 bytes: so for the empty string, for every 12-byte string and for every
14-byte string that does not start with `{CRYPT}`; and in that case the
function called at line 308 is not consulted: the outcome is the same whatever
that function is, and whatever the password is. -/
theorem verify_length_error (p h : List Nat) :
    (DESPasswordVerify p h = .error .hashLength ↔ (stripCrypt h).length ≠ 13) ∧
    (h = [] → DESPasswordVerify p h = .error .hashLength) ∧
    (h.length = 12 → DESPasswordVerify p h = .error .hashLength) ∧
    (h.length = 14 → ¬ cryptPrefix <+: h → DESPasswordVerify p h = .error .hashLength) ∧
    ((stripCrypt h).length ≠ 13 →
      ∀ (hash : List Nat → List Nat → Except Failure (List Nat)) (p' : List Nat),
        verifyWith hash p' h = .error .hashLength) := by
  have key : (stripCrypt h).length ≠ 13 → DESPasswordVerify p h = .error .hashLength := by
    intro hl
    rw [DESPasswordVerify_eq, if_pos hl]
  have hlen := stripCrypt_length h
  refine ⟨⟨fun e hl => verify_not_hashLength p h hl e, key⟩, ?_, ?_, ?_, ?_⟩
  · intro e
    apply key
    rw [hlen, e]
    split <;> simp
  · intro e
    apply key
    rw [hlen, e]
    split <;> simp
  · intro e hnp
    apply key
    rw [hlen, if_neg hnp, e]
    simp
  · intro hl hash p'
    rw [verifyWith_eq, if_pos hl]

theorem verify_length_error_witness :
    (ascii "ab1xQWzQ9QfX").length = 12 ∧
      DESPasswordVerify (ascii "password") (ascii "ab1xQWzQ9QfX") = .error .hashLength ∧
      (ascii "ab1xQWzQ9QfwwX").length = 14 ∧ ¬ cryptPrefix <+: ascii "ab1xQWzQ9QfwwX" ∧
      DESPasswordVerify (ascii "password") (ascii "ab1xQWzQ9QfwwX") = .error .hashLength ∧
      DESPasswordVerify (ascii "password") [] = .error .hashLength :=
  ⟨by decide,
    (verify_length_error (ascii "password") (ascii "ab1xQWzQ9QfX")).2.2.1 (by decide),
    by decide, by decide,
    (verify_length_error (ascii "password") (ascii "ab1xQWzQ9QfwwX")).2.2.2.1 (by decide)
      (by decide),
    (verify_length_error (ascii "password") []).2.1 rfl⟩

theorem stripCrypt_append (h : List Nat) : stripCrypt (cryptPrefix ++ h) = h := by
  rw [stripCrypt_pos (List.prefix_append _ _), ← cryptPrefix_length, List.drop_left]

/-- A stored string that still starts with `{` after stripping fails with the
invalid-salt error when it has 13 bytes. -/
theorem verify_brace (p h : List Nat) (hp : cryptPrefix <+: h) (hl : h.length = 13) :
    DESPasswordVerify p (cryptPrefix ++ h) = .error .invalidSalt := by
  rw [DESPasswordVerify_eq, stripCrypt_append, if_neg (fun hh => hh hl), DESCryptHash_eq]
  have h2 : (h.take 2).length = 2 := by
    rw [List.length_take]
    omega
  have h0 : (h.take 2).getD 0 0 = 123 := by
    rw [getD_take h 2 0 (by decide)]
    exact head_of_cryptPrefix hp
  have hv : ¬ (isValidChar ((h.take 2).getD 0 0) = true ∧
      isValidChar ((h.take 2).getD 1 0) = true) := by
    intro hh
    have := (isValidChar_iff _).mp hh.1
    rw [h0] at this
    exact not_alphabet_brace this
  rw [if_neg (by omega), if_neg hv]
  simp only [error_bind]

/-- C10, as stated, fails: against the stored string `{CRYPT}{CRYPT}xyw1.V0rbu5mQ`
the empty password gets the length error, against `{CRYPT}xyw1.V0rbu5mQ` it
gets nil. -/
theorem prefix_tolerance_fails :
    DESPasswordVerify (ascii "") (cryptPrefix ++ (cryptPrefix ++ ascii "xyw1.V0rbu5mQ")) =
        .error .hashLength ∧
      DESPasswordVerify (ascii "") (cryptPrefix ++ ascii "xyw1.V0rbu5mQ") = .ok () ∧
      DESPasswordVerify (ascii "") (cryptPrefix ++ (cryptPrefix ++ ascii "xyw1.V0rbu5mQ")) ≠
        DESPasswordVerify (ascii "") (cryptPrefix ++ ascii "xyw1.V0rbu5mQ") := by
  have e1 : DESPasswordVerify (ascii "")
      (cryptPrefix ++ (cryptPrefix ++ ascii "xyw1.V0rbu5mQ")) = .error .hashLength := by
    rw [DESPasswordVerify_eq, stripCrypt_append, if_pos (by decide)]
  have e2 : DESPasswordVerify (ascii "") (cryptPrefix ++ ascii "xyw1.V0rbu5mQ") = .ok () := by
    have ht : (ascii "xyw1.V0rbu5mQ").take 2 = ascii "xy" := by decide
    have e : ascii "" = [] := by decide
    rw [DESPasswordVerify_eq, stripCrypt_append, if_neg (by decide), ht, e, hash_empty_xy]
    simp only [ok_bind]
    rw [if_neg (fun hh => hh rfl)]
  refine ⟨e1, e2, ?_⟩
  rw [e1, e2]
  intro hh
  cases hh

/-- C10, amended. Prefix tolerance: `DESPasswordVerify` of a password against
`{CRYPT}` followed by `h` returns the same result as against `h` exactly when
`h` does not itself start with `{CRYPT}`, or has neither 13 nor 20 bytes; in
particular for every `h` that does not start with `{CRYPT}`. -/
theorem prefix_tolerance (p h : List Nat) :
    (DESPasswordVerify p (cryptPrefix ++ h) = DESPasswordVerify p h ↔
      (¬ cryptPrefix <+: h ∨ (h.length ≠ 13 ∧ h.length ≠ 20))) ∧
    (¬ cryptPrefix <+: h → DESPasswordVerify p (cryptPrefix ++ h) = DESPasswordVerify p h) := by
  have hno : ¬ cryptPrefix <+: h →
      DESPasswordVerify p (cryptPrefix ++ h) = DESPasswordVerify p h := by
    intro hnp
    rw [DESPasswordVerify_eq, DESPasswordVerify_eq, stripCrypt_append,
      stripCrypt_neg hnp]
  refine ⟨⟨fun e => ?_, fun hh => ?_⟩, hno⟩
  · by_cases hp : cryptPrefix <+: h
    · right
      have hlen := stripCrypt_length h
      rw [if_pos hp] at hlen
      have hl7 : 7 ≤ h.length := by
        have := hp.length_le
        rw [cryptPrefix_length] at this
        exact this
      constructor
      · intro hl
        rw [verify_brace p h hp hl] at e
        have : DESPasswordVerify p h = .error .hashLength := by
          rw [DESPasswordVerify_eq, if_pos (by rw [hlen, hl]; decide)]
        rw [this] at e
        cases e
      · intro hl
        have h1 : DESPasswordVerify p (cryptPrefix ++ h) = .error .hashLength := by
          rw [DESPasswordVerify_eq, stripCrypt_append, if_pos (by rw [hl]; decide)]
        rw [h1] at e
        exact verify_not_hashLength p h (by rw [hlen, hl]) e.symm
    · exact Or.inl hp
  · by_cases hp : cryptPrefix <+: h
    · rcases hh with hh | hh
      · exact absurd hp hh
      · have hlen := stripCrypt_length h
        rw [if_pos hp] at hlen
        have hl7 : 7 ≤ h.length := by
          have := hp.length_le
          rw [cryptPrefix_length] at this
          exact this
        rw [DESPasswordVerify_eq, DESPasswordVerify_eq, stripCrypt_append, if_pos hh.1,
          if_pos (by rw [hlen]; omega)]
    · exact hno hp

theorem prefix_tolerance_witness :
    ¬ cryptPrefix <+: ascii "xyw1.V0rbu5mQ" ∧
      DESPasswordVerify (ascii "") (cryptPrefix ++ ascii "xyw1.V0rbu5mQ") =
        DESPasswordVerify (ascii "") (ascii "xyw1.V0rbu5mQ") :=
  ⟨by decide, (prefix_tolerance (ascii "") (ascii "xyw1.V0rbu5mQ")).2 (by decide)⟩

/-! ## Errors of `DESPasswordVerify` on a stored string of the right length -/

/-- The outcome of `DESPasswordVerify` when the stripped string has 13 bytes. -/
theorem verify_of_length (p h : List Nat) (hl : (stripCrypt h).length = 13) :
    DESPasswordVerify p h =
      if InAlphabet ((stripCrypt h).getD 0 0) ∧ InAlphabet ((stripCrypt h).getD 1 0) then
        if hashOf ((stripCrypt h).take 2) (hashWord p ((stripCrypt h).take 2)) ≠ stripCrypt h then
          .error .mismatch
        else .ok ()
      else .error .invalidSalt := by
  have h2 : ¬ ((stripCrypt h).take 2).length < 2 := by
    rw [List.length_take]
    omega
  have e0 := getD_take (stripCrypt h) 2 0 (by decide)
  have e1 := getD_take (stripCrypt h) 2 1 (by decide)
  rw [DESPasswordVerify_eq, if_neg (fun hh => hh hl), DESCryptHash_eq, if_neg h2, e0, e1]
  by_cases hv : InAlphabet ((stripCrypt h).getD 0 0) ∧ InAlphabet ((stripCrypt h).getD 1 0)
  · rw [if_pos hv, if_pos ⟨(isValidChar_iff _).mpr hv.1, (isValidChar_iff _).mpr hv.2⟩]
    simp only [ok_bind]
  · rw [if_neg hv, if_neg (fun hh => hv ⟨(isValidChar_iff _).mp hh.1, (isValidChar_iff _).mp hh.2⟩)]
    simp only [error_bind]

/-- C11, as stated, fails: the stored string `!!1xQWzQ9Qf8w` has 13 bytes and
`DESPasswordVerify` returns the invalid-salt error of `DESCryptHash` for it,
which is neither nil nor the mismatch error. -/
theorem verify_salt_error_reached :
    (stripCrypt (ascii "!!1xQWzQ9Qf8w")).length = 13 ∧
      DESPasswordVerify (ascii "password") (ascii "!!1xQWzQ9Qf8w") = .error .invalidSalt ∧
      ¬ (DESPasswordVerify (ascii "password") (ascii "!!1xQWzQ9Qf8w") = .ok () ∨
        DESPasswordVerify (ascii "password") (ascii "!!1xQWzQ9Qf8w") = .error .mismatch) := by
  have hl : (stripCrypt (ascii "!!1xQWzQ9Qf8w")).length = 13 := by decide
  have e : DESPasswordVerify (ascii "password") (ascii "!!1xQWzQ9Qf8w") = .error .invalidSalt := by
    rw [verify_of_length _ _ hl, if_neg (by decide)]
  refine ⟨hl, e, ?_⟩
  rw [e]
  intro hh
  rcases hh with hh | hh <;> cases hh

/-- C11, amended. For a stored string of 13 bytes after the optional `{CRYPT}`
is stripped, `DESPasswordVerify` returns nil, the mismatch error or the
invalid-salt error, the last exactly when one of the first two bytes of the
stripped string is outside the alphabet (the error of `DESCryptHash` is
returned as it is); it never returns the salt-length error. -/
theorem verify_errors (p h : List Nat) (hl : (stripCrypt h).length = 13) :
    (DESPasswordVerify p h = .ok () ∨ DESPasswordVerify p h = .error .mismatch ∨
      DESPasswordVerify p h = .error .invalidSalt) ∧
    (DESPasswordVerify p h = .error .invalidSalt ↔
      (¬ InAlphabet ((stripCrypt h).getD 0 0) ∨ ¬ InAlphabet ((stripCrypt h).getD 1 0))) ∧
    DESPasswordVerify p h ≠ .error .saltLength := by
  rw [verify_of_length p h hl]
  by_cases hv : InAlphabet ((stripCrypt h).getD 0 0) ∧ InAlphabet ((stripCrypt h).getD 1 0)
  · rw [if_pos hv]
    have hor : ¬ (¬ InAlphabet ((stripCrypt h).getD 0 0) ∨
        ¬ InAlphabet ((stripCrypt h).getD 1 0)) := by
      intro hh
      rcases hh with hh | hh
      · exact hh hv.1
      · exact hh hv.2
    by_cases hne : hashOf ((stripCrypt h).take 2) (hashWord p ((stripCrypt h).take 2)) ≠
        stripCrypt h
    · rw [if_pos hne]
      exact ⟨Or.inr (Or.inl rfl), ⟨fun e => (by cases e), fun hh => absurd hh hor⟩,
        fun e => (by cases e)⟩
    · rw [if_neg hne]
      exact ⟨Or.inl rfl, ⟨fun e => (by cases e), fun hh => absurd hh hor⟩,
        fun e => (by cases e)⟩
  · rw [if_neg hv]
    have hor : ¬ InAlphabet ((stripCrypt h).getD 0 0) ∨
        ¬ InAlphabet ((stripCrypt h).getD 1 0) := by
      by_cases h0 : InAlphabet ((stripCrypt h).getD 0 0)
      · exact Or.inr (fun h1 => hv ⟨h0, h1⟩)
      · exact Or.inl h0
    exact ⟨Or.inr (Or.inr rfl), ⟨fun _ => hor, fun _ => rfl⟩, fun e => (by cases e)⟩

theorem verify_errors_witness :
    (stripCrypt (cryptPrefix ++ ascii "xy1xQWzQ9Qf8w")).length = 13 ∧
      (DESPasswordVerify [] (cryptPrefix ++ ascii "xy1xQWzQ9Qf8w") = .ok () ∨
        DESPasswordVerify [] (cryptPrefix ++ ascii "xy1xQWzQ9Qf8w") = .error .mismatch ∨
        DESPasswordVerify [] (cryptPrefix ++ ascii "xy1xQWzQ9Qf8w") = .error .invalidSalt) ∧
      DESPasswordVerify [] (cryptPrefix ++ ascii "xy1xQWzQ9Qf8w") ≠ .error .saltLength :=
  ⟨by decide,
    (verify_errors [] (cryptPrefix ++ ascii "xy1xQWzQ9Qf8w") (by decide)).1,
    (verify_errors [] (cryptPrefix ++ ascii "xy1xQWzQ9Qf8w") (by decide)).2.2⟩

/-! ## No panic -/

theorem sIndex_cells_lt : ∀ b0, b0 < 2 → ∀ b1, b1 < 2 → ∀ b2, b2 < 2 → ∀ b3, b3 < 2 →
    ∀ b4, b4 < 2 → ∀ b5, b5 < 2 →
    shl8 b0 5 ||| shl8 b1 3 ||| shl8 b2 2 ||| shl8 b3 1 ||| shl8 b4 0 ||| shl8 b5 4 < 64 := by
  decide

theorem hash_total (p s : List Nat) : DESCryptHash p s ≠ .error .indexOutOfRange := by
  rw [DESCryptHash_eq]
  intro e
  split at e
  · cases e
  · split at e <;> cases e

theorem verify_total (p h : List Nat) : DESPasswordVerify p h ≠ .error .indexOutOfRange := by
  rw [DESPasswordVerify_eq]
  intro e
  split at e
  · cases e
  · cases hc : DESCryptHash p ((stripCrypt h).take 2) with
    | error f =>
      rw [hc] at e
      simp only [error_bind] at e
      injection e with e
      exact hash_total p _ (by rw [hc, e])
    | ok c =>
      rw [hc] at e
      simp only [ok_bind] at e
      split at e <;> cases e

/-- C12. No panic on any input: `DESCryptHash` and `DESPasswordVerify` never
end in an index or a slice out of range, so each call returns a value or one
of the four errors; and the table-driven index expressions are in bounds
without wrap-around of the `uint8` subtraction: `key[PC1-1]`, `C[PC2_C-1]`,
`D[PC2_D-29]`, `right[Ebits-1]` for the salted table of any salt, `S[j][idx]`
for six cells of bits, `f[P-1]`, `block[IP-1]`, `left[FP-1]`, `right[FP-33]`,
`block[6i+j]`. -/
theorem panic_free :
    (∀ p s : List Nat, DESCryptHash p s ≠ .error .indexOutOfRange) ∧
    (∀ p h : List Nat, DESPasswordVerify p h ≠ .error .indexOutOfRange) ∧
    (∀ p s : List Nat, (∃ h, DESCryptHash p s = .ok h) ∨
      DESCryptHash p s = .error .saltLength ∨ DESCryptHash p s = .error .invalidSalt) ∧
    (∀ j, j < 28 → (1 ≤ PC1_C.getD j 0 ∧ sub8 (PC1_C.getD j 0) 1 < 64) ∧
      (1 ≤ PC1_D.getD j 0 ∧ sub8 (PC1_D.getD j 0) 1 < 64)) ∧
    (∀ j, j < 24 → (1 ≤ PC2_C.getD j 0 ∧ sub8 (PC2_C.getD j 0) 1 < 28) ∧
      (29 ≤ PC2_D.getD j 0 ∧ sub8 (sub8 (PC2_D.getD j 0) 28) 1 < 28)) ∧
    (∀ salt : List Nat, 2 ≤ salt.length → ∃ Ebits, saltedE salt = .ok Ebits ∧
      ∀ j, j < 48 → 1 ≤ Ebits.getD j 0 ∧ sub8 (Ebits.getD j 0) 1 < 32) ∧
    (∀ b0, b0 < 2 → ∀ b1, b1 < 2 → ∀ b2, b2 < 2 → ∀ b3, b3 < 2 → ∀ b4, b4 < 2 →
      ∀ b5, b5 < 2 →
      shl8 b0 5 ||| shl8 b1 3 ||| shl8 b2 2 ||| shl8 b3 1 ||| shl8 b4 0 ||| shl8 b5 4 < 64) ∧
    (∀ j, j < 32 → 1 ≤ P.getD j 0 ∧ sub8 (P.getD j 0) 1 < 32) ∧
    (∀ j, j < 64 → 1 ≤ IP.getD j 0 ∧ sub8 (IP.getD j 0) 1 < 66) ∧
    (∀ j, j < 64 → 1 ≤ FP.getD j 0 ∧
      (FP.getD j 0 < 33 → sub8 (FP.getD j 0) 1 < 32) ∧
      (¬ FP.getD j 0 < 33 → sub8 (FP.getD j 0) 33 < 32)) ∧
    (∀ i, i < 11 → ∀ j, j < 6 → 6 * i + j ≤ 65) := by
  refine ⟨hash_total, verify_total, ?_, by decide, by decide, ?_, sIndex_cells_lt,
    by decide, by decide, by decide, fun i hi j hj => by omega⟩
  · intro p s
    rw [DESCryptHash_eq]
    split
    · exact Or.inr (Or.inl rfl)
    · split
      · exact Or.inl ⟨_, rfl⟩
      · exact Or.inr (Or.inr rfl)
  · intro salt h2
    refine ⟨saltedTable salt, saltedE_eq salt h2, ?_⟩
    intro j hj
    have hb := (saltedTable_good salt).2 j hj
    rw [sub8_of_le hb.1 (by omega)]
    omega

/-! ## Only the first two salt bytes are read -/

/-- C13. Only the first two salt bytes are read: for a salt of two bytes or
more, `DESCryptHash` returns the same result, string or error, as for the
first two bytes of the salt alone. -/
theorem salt_two_bytes (p s : List Nat) (h : 2 ≤ s.length) :
    DESCryptHash p s = DESCryptHash p (s.take 2) := by
  have hl : (s.take 2).length = 2 := by
    rw [List.length_take]
    omega
  have e0 := getD_take s 2 0 (by decide)
  have e1 := getD_take s 2 1 (by decide)
  have hs : ¬ s.length < 2 := by omega
  have ht : ¬ (s.take 2).length < 2 := by omega
  rw [DESCryptHash_eq p (s.take 2), if_neg ht, e0, e1, hashOf_congr (s.take 2) s _ e0 e1,
    hashWord_congr p (s.take 2) s e0 e1, DESCryptHash_eq p s, if_neg hs]

theorem salt_two_bytes_witness :
    2 ≤ (ascii "rq/N3gSWdwWeA").length ∧
      DESCryptHash (ascii "SecretPassword123") (ascii "rq/N3gSWdwWeA") =
        DESCryptHash (ascii "SecretPassword123") ((ascii "rq/N3gSWdwWeA").take 2) :=
  ⟨by decide, salt_two_bytes (ascii "SecretPassword123") (ascii "rq/N3gSWdwWeA") (by decide)⟩

/-! ## Short passwords are zero-padded -/

theorem getD_append_zeros (p : List Nat) (k i : Nat) :
    (p ++ List.replicate k 0).getD i 0 = p.getD i 0 := by
  rw [List.getD_eq_getElem?_getD, List.getD_eq_getElem?_getD]
  by_cases hi : i < p.length
  · rw [List.getElem?_append_left hi]
  · rw [List.getElem?_append_right (by omega), List.getElem?_eq_none (by omega : p.length ≤ i),
      List.getElem?_replicate]
    split <;> rfl

theorem keyList_append_zeros (p : List Nat) (k : Nat) :
    keyList p = keyList (p ++ List.replicate k 0) := by
  unfold keyList
  refine tab_congr ?_
  intro m _
  rw [getD_append_zeros, List.length_append, List.length_replicate]
  by_cases h1 : m / 8 < min p.length 8 ∧ m % 8 < 7
  · rw [if_pos h1, if_pos ⟨by omega, h1.2⟩]
  · rw [if_neg h1]
    by_cases h2 : m / 8 < min (p.length + k) 8 ∧ m % 8 < 7
    · rw [if_pos h2, List.getD_eq_getElem?_getD,
        List.getElem?_eq_none (by omega : p.length ≤ m / 8)]
      simp
    · rw [if_neg h2]

/-- C14. Short passwords are zero-padded: a password followed by any number of
zero bytes has the same result, for every salt; in particular the empty
password hashes like a password of eight zero bytes. -/
theorem zero_padding (s p : List Nat) :
    (p.length < 8 → ∀ k, DESCryptHash p s = DESCryptHash (p ++ List.replicate k 0) s) ∧
    DESCryptHash [] s = DESCryptHash (List.replicate 8 0) s := by
  refine ⟨fun _ k => hash_congr_key _ _ s (keyList_append_zeros p k), ?_⟩
  have := hash_congr_key _ _ s (keyList_append_zeros [] 8)
  simpa using this

theorem zero_padding_witness :
    (ascii "short").length < 8 ∧
      DESCryptHash (ascii "short") (ascii "12") =
        DESCryptHash (ascii "short" ++ List.replicate 3 0) (ascii "12") ∧
      DESCryptHash [] (ascii "xy") = DESCryptHash (List.replicate 8 0) (ascii "xy") :=
  ⟨by decide, (zero_padding (ascii "12") (ascii "short")).1 (by decide) 3,
    (zero_padding (ascii "xy") []).2⟩

/-! ## Verification against a generated hash -/

set_option maxRecDepth 1000000 in
theorem hash_secret_rq :
    DESCryptHash (ascii "SecretPassword123") (ascii "rq") = .ok (ascii "rq/N3gSWdwWeA") := by
  rw [DESCryptHash_eq]
  decide!

set_option maxRecDepth 1000000 in
theorem hash_wrong_rq :
    DESCryptHash (ascii "WrongPassword") (ascii "rq") = .ok (ascii "rqnO5.MEhjGLo") := by
  rw [DESCryptHash_eq]
  decide!

/-- C15. Verification against a generated hash is decided by hash equality
alone: against the string `DESCryptHash` returned for a password `p` and a salt
`s`, a password `q` gets nil exactly when `DESCryptHash` of `q` under `s`
equals that of `p`, and the mismatch error otherwise. -/
theorem verify_generated (s p q h : List Nat) (e : DESCryptHash p s = .ok h) :
    (DESPasswordVerify q h = .ok () ↔ DESCryptHash q s = DESCryptHash p s) ∧
    (DESCryptHash q s ≠ DESCryptHash p s → DESPasswordVerify q h = .error .mismatch) := by
  rcases DESCryptHash_ok e with ⟨hlen, v0, v1, rfl⟩
  have hq := DESCryptHash_valid q s hlen v0 v1
  rw [verify_hashOf p s ((isValidChar_iff _).mp v0) ((isValidChar_iff _).mp v1) q, hq, e]
  by_cases hne : hashOf s (hashWord q s) ≠ hashOf s (hashWord p s)
  · rw [if_pos hne]
    refine ⟨⟨fun hh => (by cases hh), fun hh => ?_⟩, fun _ => rfl⟩
    injection hh with hh
    exact absurd hh hne
  · rw [if_neg hne]
    have heq : hashOf s (hashWord q s) = hashOf s (hashWord p s) := by
      by_cases h' : hashOf s (hashWord q s) = hashOf s (hashWord p s)
      · exact h'
      · exact absurd h' hne
    refine ⟨⟨fun _ => by rw [heq], fun _ => rfl⟩, fun hh => ?_⟩
    exact absurd (by rw [heq]) hh

theorem verify_generated_witness :
    DESCryptHash (ascii "SecretPassword123") (ascii "rq") = .ok (ascii "rq/N3gSWdwWeA") ∧
      DESCryptHash (ascii "WrongPassword") (ascii "rq") ≠
        DESCryptHash (ascii "SecretPassword123") (ascii "rq") ∧
      DESPasswordVerify (ascii "WrongPassword") (ascii "rq/N3gSWdwWeA") = .error .mismatch ∧
      DESPasswordVerify (ascii "SecretPassword123") (ascii "rq/N3gSWdwWeA") = .ok () := by
  have hne : DESCryptHash (ascii "WrongPassword") (ascii "rq") ≠
      DESCryptHash (ascii "SecretPassword123") (ascii "rq") := by
    rw [hash_secret_rq, hash_wrong_rq]
    decide
  exact ⟨hash_secret_rq, hne,
    (verify_generated (ascii "rq") (ascii "SecretPassword123") (ascii "WrongPassword")
      (ascii "rq/N3gSWdwWeA") hash_secret_rq).2 hne,
    (verify_generated (ascii "rq") (ascii "SecretPassword123") (ascii "SecretPassword123")
      (ascii "rq/N3gSWdwWeA") hash_secret_rq).1.mpr rfl⟩

/-! ## The salt decoder and the output encoder -/

theorem decode_table : ∀ c, c < 123 → InAlphabet c →
    ((decodeSalt c : Int) = decodeSpec c ∧ decodeSalt c = validChars.indexOf c ∧
      decodeSalt c < 64 ∧ validChars.getD (decodeSalt c) 0 = c) := by
  decide

theorem alphabet_lt {c : Nat} (h : InAlphabet c) : c < 123 := by
  unfold InAlphabet at h
  omega

/-- C16. Salt decoding is the alphabet index: for each of the 64 alphabet bytes
the value the code computes in `uint8` arithmetic equals the value `v(c)` of
the specification, computed without truncation, and equals the position of the
byte in the ordered alphabet string, a value in `0..63`. -/
theorem decode_is_index (c : Nat) (h : InAlphabet c) :
    (decodeSalt c : Int) = decodeSpec c ∧ decodeSalt c = validChars.indexOf c ∧
      decodeSalt c < 64 ∧ validChars.getD (decodeSalt c) 0 = c :=
  decode_table c (alphabet_lt h) h

theorem decode_is_index_witness :
    InAlphabet 97 ∧ (decodeSalt 97 : Int) = decodeSpec 97 ∧
      decodeSalt 97 = validChars.indexOf 97 ∧ decodeSalt 97 < 64 ∧
      validChars.getD (decodeSalt 97) 0 = 97 ∧ decodeSalt 97 = 38 :=
  ⟨by decide, (decode_is_index 97 (by decide)).1, (decode_is_index 97 (by decide)).2.1,
    (decode_is_index 97 (by decide)).2.2.1, (decode_is_index 97 (by decide)).2.2.2, by decide⟩

theorem decode_encode_table : ∀ v, v < 64 → decodeSalt (encodeChar v) = v := by decide

theorem encode_decode_table : ∀ c, c < 123 → InAlphabet c → encodeChar (decodeSalt c) = c := by
  decide

/-- C17. The output encoder is the inverse of the salt decoder: decoding the
byte the encoder produces for a six-bit value gives the value back, and
encoding the decoded value of an alphabet byte gives the byte back. -/
theorem encode_decode_inverse :
    (∀ v, v < 64 → decodeSalt (encodeChar v) = v) ∧
    (∀ c, InAlphabet c → encodeChar (decodeSalt c) = c) :=
  ⟨decode_encode_table, fun c h => encode_decode_table c (alphabet_lt h) h⟩

theorem encode_decode_inverse_witness :
    (63 < 64 ∧ decodeSalt (encodeChar 63) = 63 ∧ encodeChar 63 = 122) ∧
      (InAlphabet 65 ∧ encodeChar (decodeSalt 65) = 65 ∧ decodeSalt 65 = 12) :=
  ⟨⟨by decide, encode_decode_inverse.1 63 (by decide), by decide⟩,
    ⟨by decide, encode_decode_inverse.2 65 (by decide), by decide⟩⟩

/-! ## The salted table is a rearrangement of E -/

theorem tab_succ {α : Type} (n : Nat) (g : Nat → α) : tab (n + 1) g = tab n g ++ [g n] := by
  simp [tab, List.range_succ]

theorem tab_append {α : Type} (a : Nat) (g : Nat → α) :
    ∀ b, tab (a + b) g = tab a g ++ tab b (fun m => g (a + m))
  | 0 => by simp [tab]
  | b + 1 => by
    rw [← Nat.add_assoc, tab_succ, tab_append a g b, tab_succ, List.append_assoc]

theorem tab_getD {n i : Nat} (g : Nat → Nat) (h : i < n) : (tab n g).getD i 0 = g i := by
  rw [List.getD_eq_getElem?_getD, tab_getElem?, if_pos h]
  rfl

theorem perm_snoc_snoc (A B : List Nat) (a b : Nat) :
    ((A ++ [a]) ++ (B ++ [b])).Perm (a :: b :: (A ++ B)) := by
  have h1 : ((A ++ [a]) ++ (B ++ [b])) = A ++ a :: (B ++ [b]) := by simp
  rw [h1]
  refine List.perm_middle.trans (List.Perm.cons a ?_)
  rw [← List.append_assoc]
  exact List.perm_append_singleton b (A ++ B)

/-- Two arrays in which some pairs of cells at the same index are exchanged
hold together what the original two arrays hold. -/
theorem perm_exchange (c : Nat → Prop) [DecidablePred c] (x y : Nat → Nat) :
    ∀ n, (tab n (fun m => if c m then y m else x m) ++
      tab n (fun m => if c m then x m else y m)).Perm (tab n x ++ tab n y)
  | 0 => by simp [tab]
  | n + 1 => by
    have ih := perm_exchange c x y n
    rw [tab_succ, tab_succ, tab_succ, tab_succ]
    refine (perm_snoc_snoc _ _ _ _).trans (List.Perm.trans ?_ (perm_snoc_snoc _ _ _ _).symm)
    by_cases hc : c n
    · rw [if_pos hc, if_pos hc]
      exact (List.Perm.swap _ _ _).trans (List.Perm.cons _ (List.Perm.cons _ ih))
    · rw [if_neg hc, if_neg hc]
      exact List.Perm.cons _ (List.Perm.cons _ ih)

theorem saltedTable_split (salt : List Nat) :
    saltedTable salt =
      tab 24 (fun m =>
        if m < 12 ∧ bit (decodeSalt (salt.getD (m / 6) 0)) (m % 6) = 1 then E.getD (m + 24) 0
        else E.getD m 0) ++
      tab 24 (fun m =>
        if m < 12 ∧ bit (decodeSalt (salt.getD (m / 6) 0)) (m % 6) = 1 then E.getD m 0
        else E.getD (m + 24) 0) := by
  have e := tab_append 24 (fun m =>
    if m % 24 < 12 ∧ bit (decodeSalt (salt.getD (m % 24 / 6) 0)) (m % 6) = 1 then
      E.getD ((m + 24) % 48) 0
    else E.getD m 0) 24
  rw [saltedTable]
  refine e.trans ?_
  refine congr (congrArg _ (tab_congr ?_)) (tab_congr ?_)
  · intro m hm
    have e1 : m % 24 = m := by omega
    have e2 : (m + 24) % 48 = m + 24 := by omega
    rw [e1, e2]
  · intro m hm
    have e1 : (m + 24) % 24 = m := by omega
    have e2 : (m + 24 + 24) % 48 = m := by omega
    have e3 : (m + 24) % 6 = m % 6 := by omega
    have e4 : 24 + m = m + 24 := by omega
    simp only [e4, e1, e2, e3]

theorem E_split : E = tab 24 (fun m => E.getD m 0) ++ tab 24 (fun m => E.getD (m + 24) 0) := by
  decide

theorem saltedTable_perm (salt : List Nat) : (saltedTable salt).Perm E := by
  rw [saltedTable_split]
  have e := E_split
  have h := perm_exchange
    (fun m => m < 12 ∧ bit (decodeSalt (salt.getD (m / 6) 0)) (m % 6) = 1)
    (fun m => E.getD m 0) (fun m => E.getD (m + 24) 0) 24
  rw [← e] at h
  exact h

theorem bit_eq_one_iff (w j : Nat) : bit w j = 1 ↔ w.testBit j = true := by
  rw [bit_eq_toNat]
  cases w.testBit j <;> simp

theorem saltedTable_getD (salt : List Nat) (m : Nat) (hm : m < 48) :
    (saltedTable salt).getD m 0 =
      if m % 24 < 12 ∧ bit (decodeSalt (salt.getD (m % 24 / 6) 0)) (m % 6) = 1 then
        E.getD ((m + 24) % 48) 0
      else E.getD m 0 := by
  rw [saltedTable, tab_getD _ hm]

/-- C18. Salt mixing: for every salt of two bytes or more, with the decoded
values of its first two bytes, the salted table has the cells `6i+j` and
`6i+j+24` of E exchanged when bit `j` of the decoded value `i` is set and kept
otherwise; the cells `12..23` and `36..47` are those of E; the table is a
rearrangement of E with every entry in `1..32`; and for the salt `..` it is E. -/
theorem salt_mixing (salt : List Nat) (h : 2 ≤ salt.length) :
    (∃ Ebits, saltedE salt = .ok Ebits ∧
      (∀ i, i < 2 → ∀ j, j < 6 →
        if (decodeSalt (salt.getD i 0)).testBit j = true then
          Ebits.getD (6 * i + j) 0 = E.getD (6 * i + j + 24) 0 ∧
            Ebits.getD (6 * i + j + 24) 0 = E.getD (6 * i + j) 0
        else
          Ebits.getD (6 * i + j) 0 = E.getD (6 * i + j) 0 ∧
            Ebits.getD (6 * i + j + 24) 0 = E.getD (6 * i + j + 24) 0) ∧
      (∀ m, (12 ≤ m ∧ m < 24) ∨ (36 ≤ m ∧ m < 48) → Ebits.getD m 0 = E.getD m 0) ∧
      Ebits.Perm E ∧ Ebits.length = 48 ∧
      (∀ m, m < 48 → 1 ≤ Ebits.getD m 0 ∧ Ebits.getD m 0 ≤ 32)) ∧
    saltedE (ascii "..") = .ok E := by
  refine ⟨⟨saltedTable salt, saltedE_eq salt h, ?_, ?_, saltedTable_perm salt,
    (saltedTable_good salt).1, (saltedTable_good salt).2⟩, ?_⟩
  · intro i hi j hj
    have e1 : (6 * i + j) % 24 = 6 * i + j := by omega
    have e2 : (6 * i + j) / 6 = i := by omega
    have e3 : (6 * i + j) % 6 = j := by omega
    have e4 : (6 * i + j + 24) % 24 = 6 * i + j := by omega
    have e5 : (6 * i + j + 24) % 6 = j := by omega
    have e6 : (6 * i + j + 24) % 48 = 6 * i + j + 24 := by omega
    have e7 : (6 * i + j + 24 + 24) % 48 = 6 * i + j := by omega
    have a := saltedTable_getD salt (6 * i + j) (by omega)
    have b := saltedTable_getD salt (6 * i + j + 24) (by omega)
    rw [e1, e2, e3, e6] at a
    rw [e4, e2, e5, e7] at b
    by_cases hb : (decodeSalt (salt.getD i 0)).testBit j = true
    · have hb' := (bit_eq_one_iff _ _).mpr hb
      rw [if_pos hb]
      rw [if_pos ⟨by omega, hb'⟩] at a b
      exact ⟨a, b⟩
    · have hb' : ¬ bit (decodeSalt (salt.getD i 0)) j = 1 :=
        fun hh => hb ((bit_eq_one_iff _ _).mp hh)
      rw [if_neg hb]
      rw [if_neg (fun hh => hb' hh.2)] at a b
      exact ⟨a, b⟩
  · intro m hm
    rw [saltedTable_getD salt m (by omega), if_neg (fun hh => by omega)]
  · rw [saltedE_eq _ (by decide)]
    exact congrArg Except.ok (by decide)

theorem salt_mixing_witness :
    2 ≤ (ascii "rq").length ∧
      saltedE (ascii "rq") = .ok [16, 17, 18, 3, 20, 21, 4, 21, 22, 7, 24, 25, 8, 9, 10, 11, 12,
        13, 12, 13, 14, 15, 16, 17, 32, 1, 2, 19, 4, 5, 20, 5, 6, 23, 8, 9, 24, 25, 26, 27, 28,
        29, 28, 29, 30, 31, 32, 1] ∧
      (∃ Ebits, saltedE (ascii "rq") = .ok Ebits ∧ Ebits.Perm E) :=
  ⟨by decide, by decide,
    match (salt_mixing (ascii "rq") (by decide)).1 with
    | ⟨Ebits, h1, _, _, h4, _⟩ => ⟨Ebits, h1, h4⟩⟩

/-! ## The key schedule, cell by cell -/

theorem bit_rotl28_mod (c m : Nat) (hm : m < 28) : bit (rotl28 c) m = bit c ((m + 1) % 28) := by
  rw [bit_rotl28 c m hm]
  by_cases h : m < 27
  · rw [if_pos h]
    congr 1
    omega
  · rw [if_neg h]
    congr 1
    omega

theorem bit_rotTimes (c : Nat) : ∀ (n m : Nat), m < 28 →
    bit (rotTimes n c) m = bit c ((m + n) % 28)
  | 0, m, hm => by
    have e : (m + 0) % 28 = m := by omega
    rw [e]
    rfl
  | n + 1, m, hm => by
    rw [rotTimes_succ, bit_rotl28_mod _ m hm, bit_rotTimes c n _ (Nat.mod_lt _ (by decide))]
    congr 1
    omega

theorem shifts_take_sum (r : Nat) (hr : r < 16) :
    (shifts.take (r + 1)).sum = (shifts.take r).sum + shifts.getD r 0 := by
  rw [take_succ_getD shifts r (by rw [shifts_length]; exact hr), List.sum_append]
  simp

theorem bit_halfAt (c : Nat) : ∀ (r m : Nat), r ≤ 16 → m < 28 →
    bit (halfAt c r) m = bit c ((m + (shifts.take r).sum) % 28)
  | 0, m, _, hm => by
    have e : (m + (shifts.take 0).sum) % 28 = m := by
      simp only [List.take_zero, List.sum_nil]
      omega
    rw [e]
    rfl
  | r + 1, m, hr, hm => by
    have e : halfAt c (r + 1) = rotTimes (shifts.getD r 0) (halfAt c r) := rfl
    rw [e, bit_rotTimes _ _ m hm, bit_halfAt c r _ (by omega) (Nat.mod_lt _ (by decide)),
      shifts_take_sum r (by omega)]
    congr 1
    omega

theorem bitsOf_getD {n i : Nat} (w : Nat) (h : i < n) : (bitsOf n w).getD i 0 = bit w i :=
  tab_getD _ h

/-- The cells of the key schedule for halves of bits. -/
theorem keySchedule_cells (c d r j : Nat) (hr : r < 16) (hj : j < 24) :
    (((keyWords c d).map (bitsOf 48)).getD r []).getD j 0 =
        (bitsOf 28 c).getD ((PC2_C.getD j 0 - 1 + shiftSum r) % 28) 0 ∧
      (((keyWords c d).map (bitsOf 48)).getD r []).getD (j + 24) 0 =
        (bitsOf 28 d).getD ((PC2_D.getD j 0 - 29 + shiftSum r) % 28) 0 := by
  have hrow : ((keyWords c d).map (bitsOf 48)).getD r [] = bitsOf 48 (subkeyWord c d r) := by
    rw [keyWords_map, List.getD_eq_getElem?_getD, tab_getElem?, if_pos hr]
    rfl
  have hc := PC2_C_range j hj
  have hd := PC2_D_range j hj
  rw [hrow, bitsOf_getD _ (by omega : j < 48), bitsOf_getD _ (by omega : j + 24 < 48),
    bitsOf_getD c (Nat.mod_lt _ (by decide)), bitsOf_getD d (Nat.mod_lt _ (by decide)),
    subkeyWord_eq, bit_subkey _ _ j (by omega), bit_subkey _ _ (j + 24) (by omega),
    if_pos hj, if_neg (by omega), Nat.add_sub_cancel,
    bit_halfAt c (r + 1) _ (by omega) (by omega), bit_halfAt d (r + 1) _ (by omega) (by omega)]
  exact ⟨rfl, rfl⟩

/-- C19. Key-schedule rotations are cumulative: for every password, steps 1 to
3 return the key cells, the halves `C0`, `D0` selected by PC1 and the schedule
`KS`, and for every round `r` and every `j` below 24 the cells of subkey `r`
are `KS[r][j] = C0[(PC2_C[j] - 1 + t(r)) mod 28]` and
`KS[r][j+24] = D0[(PC2_D[j] - 29 + t(r)) mod 28]`, where
`t(r) = shifts[0] + ... + shifts[r]`. -/
theorem schedule_cumulative (password : List Nat) :
    ∃ key C0 D0 KS, keyBits password = .ok key ∧ permutedChoice1 key = .ok (C0, D0) ∧
      keySchedule C0 D0 = .ok KS ∧ C0.length = 28 ∧ D0.length = 28 ∧ KS.length = 16 ∧
      ∀ r, r < 16 → ∀ j, j < 24 →
        (KS.getD r []).getD j 0 = C0.getD ((PC2_C.getD j 0 - 1 + shiftSum r) % 28) 0 ∧
        (KS.getD r []).getD (j + 24) 0 = D0.getD ((PC2_D.getD j 0 - 29 + shiftSum r) % 28) 0 := by
  refine ⟨keyList password, bitsOf 28 (gather 1 PC1_C (pack (keyList password))),
    bitsOf 28 (gather 1 PC1_D (pack (keyList password))),
    (keyWords (gather 1 PC1_C (pack (keyList password)))
      (gather 1 PC1_D (pack (keyList password)))).map (bitsOf 48),
    keyBits_eq password, ?_, keySchedule_bits _ _, bitsOf_length _ _, bitsOf_length _ _, ?_, ?_⟩
  · have e := permutedChoice1_bits (pack (keyList password))
    rw [← keyList_eq_bitsOf] at e
    exact e
  · rw [List.length_map, keyWords_length]
  · intro r hr j hj
    exact keySchedule_cells _ _ r j hr hj

theorem shiftSum_values :
    (List.range 16).map shiftSum = [1, 2, 4, 6, 8, 10, 12, 14, 15, 17, 19, 21, 23, 25, 27, 28] := by
  decide

/-! ## The last two cells of the block -/

theorem bit_desEncryptWord_high (Eb Kws : List Nat) (B m : Nat) (hm : 64 ≤ m) :
    bit (desEncryptWord Eb Kws B) m = bit B m := by
  rw [desEncryptWord_eq, bit_add_mul _ _ 64 m (gather_lt 1 _ FP), if_neg (by omega),
    bit_shiftRight]
  congr 1
  omega

theorem bit_encryptTimes_high (Eb Kws : List Nat) (m : Nat) (hm : 64 ≤ m) :
    ∀ (n B : Nat), bit (encryptTimes Eb Kws n B) m = bit B m
  | 0, _ => rfl
  | n + 1, B => by
    rw [encryptTimes_succ, bit_desEncryptWord_high _ _ _ _ hm, bit_encryptTimes_high Eb Kws m hm n B]

theorem last_group_table : ∀ b0, b0 < 2 → ∀ b1, b1 < 2 → ∀ b2, b2 < 2 → ∀ b3, b3 < 2 →
    sixOf b0 b1 b2 b3 0 0 < 64 ∧ sixOf b0 b1 b2 b3 0 0 % 4 = 0 ∧
      (ascii ".26AEIMQUYcgkosw").elem (encodeChar (sixOf b0 b1 b2 b3 0 0)) = true := by
  decide

/-- C20. Only 16 final characters are possible: whenever `DESCryptHash` returns
a string, the steps before the encoder return a block whose cells 64 and 65 are
0, so the six-bit value of the last character is a multiple of 4 and that
character is one of `. 2 6 A E I M Q U Y c g k o s w`. -/
theorem last_character (p s h : List Nat) (e : DESCryptHash p s = .ok h) :
    (∃ key CD KS Ebits block, keyBits p = .ok key ∧ permutedChoice1 key = .ok CD ∧
      keySchedule CD.1 CD.2 = .ok KS ∧ saltedE s = .ok Ebits ∧
      forLoop 25 (fun _ block => desEncrypt Ebits KS block) (List.replicate 66 0) = .ok block ∧
      formatOutput s block = .ok h ∧ block.length = 66 ∧
      block.getD 64 0 = 0 ∧ block.getD 65 0 = 0) ∧
    (∃ v, v < 64 ∧ v % 4 = 0 ∧ h.getD 12 0 = encodeChar v) ∧
    h.getD 12 0 ∈ ascii ".26AEIMQUYcgkosw" := by
  rcases DESCryptHash_ok e with ⟨hlen, _, _, rfl⟩
  have h64 : bit (hashWord p s) 64 = 0 := by
    rw [hashWord, bit_encryptTimes_high _ _ 64 (by decide)]
    exact bit_zero_word 64
  have h65 : bit (hashWord p s) 65 = 0 := by
    rw [hashWord, bit_encryptTimes_high _ _ 65 (by decide)]
    exact bit_zero_word 65
  have hsix : sixWord (hashWord p s) 10 =
      sixOf (bit (hashWord p s) 60) (bit (hashWord p s) 61) (bit (hashWord p s) 62)
        (bit (hashWord p s) 63) 0 0 := by
    have e1 : sixWord (hashWord p s) 10 =
      sixOf (bit (hashWord p s) 60) (bit (hashWord p s) 61) (bit (hashWord p s) 62)
        (bit (hashWord p s) 63) (bit (hashWord p s) 64) (bit (hashWord p s) 65) := rfl
    rw [e1, h64, h65]
  have ht := last_group_table _ (bit_lt_two (hashWord p s) 60) _ (bit_lt_two (hashWord p s) 61)
    _ (bit_lt_two (hashWord p s) 62) _ (bit_lt_two (hashWord p s) 63)
  have hlast : (hashOf s (hashWord p s)).getD 12 0 = encodeChar (sixWord (hashWord p s) 10) := by
    rw [hashOf_getD _ _ 12 (by decide), if_neg (by decide), if_neg (by decide)]
  refine ⟨?_, ⟨_, ht.1, ht.2.1, by rw [hlast, hsix]⟩, by rw [hlast, hsix]; exact List.mem_of_elem_eq_true ht.2.2⟩
  refine ⟨keyList p, (bitsOf 28 (gather 1 PC1_C (pack (keyList p))),
      bitsOf 28 (gather 1 PC1_D (pack (keyList p)))),
    (keyWords (gather 1 PC1_C (pack (keyList p))) (gather 1 PC1_D (pack (keyList p)))).map
      (bitsOf 48),
    saltedTable s, bitsOf 66 (hashWord p s), keyBits_eq p, ?_, keySchedule_bits _ _,
    saltedE_eq s hlen, ?_, formatOutput_bits s _ hlen, bitsOf_length _ _, ?_, ?_⟩
  · have e := permutedChoice1_bits (pack (keyList p))
    rw [← keyList_eq_bitsOf] at e
    exact e
  · exact encrypt_loop_bits _ _ 25 (saltedTable_good s) (keyWords_length _ _)
  · rw [bitsOf_getD _ (by decide : 64 < 66), h64]
  · rw [bitsOf_getD _ (by decide : 65 < 66), h65]

theorem last_character_witness :
    DESCryptHash [] (ascii "xy") = .ok (ascii "xyw1.V0rbu5mQ") ∧
      (∃ v, v < 64 ∧ v % 4 = 0 ∧ (ascii "xyw1.V0rbu5mQ").getD 12 0 = encodeChar v) ∧
      (ascii "xyw1.V0rbu5mQ").getD 12 0 ∈ ascii ".26AEIMQUYcgkosw" :=
  ⟨hash_empty_xy, (last_character [] (ascii "xy") (ascii "xyw1.V0rbu5mQ") hash_empty_xy).2⟩

/-! ## The bit invariant -/

theorem bits_bitsOf (n w : Nat) : Bits (bitsOf n w) := by
  intro b hb
  rcases mem_tab hb with ⟨i, _, e⟩
  rw [← e]
  exact bit_le_one w i

theorem eq_bitsOf {n : Nat} {l : List Nat} (hl : l.length = n) (hb : Bits l) :
    l = bitsOf n (pack l) := by
  have := bitsOf_pack l hb
  rw [hl] at this
  exact this.symm

theorem bits_getD {l : List Nat} (hb : Bits l) (i : Nat) : l.getD i 0 ≤ 1 := by
  rw [List.getD_eq_getElem?_getD]
  by_cases hi : i < l.length
  · rw [List.getElem?_eq_getElem hi]
    exact hb _ (List.getElem_mem hi)
  · rw [List.getElem?_eq_none (by omega)]
    exact Nat.zero_le 1

theorem rows_eq_bitsOf {KS : List (List Nat)}
    (hrow : ∀ row, row ∈ KS → row.length = 48 ∧ Bits row) :
    KS = (KS.map pack).map (bitsOf 48) := by
  rw [List.map_map]
  have e : ∀ row, row ∈ KS → (bitsOf 48 ∘ pack) row = id row := by
    intro row hr
    exact (eq_bitsOf (hrow row hr).1 (hrow row hr).2).symm
  rw [List.map_congr_left e, List.map_id]

theorem rounds_bits_upto (Eb Kws : List Nat) (L R k : Nat) (hE : GoodE Eb)
    (hk : k ≤ Kws.length) :
    forLoop k (fun i LR => feistelRound Eb (Kws.map (bitsOf 48)) i LR)
        (bitsOf 32 L, bitsOf 32 R) =
      .ok (bitsOf 32 (roundsWord Eb (Kws.take k) L R).1,
        bitsOf 32 (roundsWord Eb (Kws.take k) L R).2) := by
  refine forLoop_steps _ (fun j => (bitsOf 32 (roundsWord Eb (Kws.take j) L R).1,
    bitsOf 32 (roundsWord Eb (Kws.take j) L R).2)) k _ _ ?_ rfl ?_
  · simp [roundsWord]
  · intro j hj
    beta_reduce
    have hj' : j < Kws.length := by omega
    rw [feistelRound_bits Eb Kws j _ _ hE hj', take_succ_getD Kws j hj', roundsWord_append]

/-- One round on halves of bits: every array it builds holds bits, and every
S-box index is below 64. -/
theorem round_cells (Eb Kws : List Nat) (i : Nat) (L R : List Nat) (hE : GoodE Eb)
    (hi : i < Kws.length) (hL : L.length = 32) (hR : R.length = 32) (bL : Bits L)
    (bR : Bits R) :
    ∃ preS f newRight, expandXor Eb (Kws.map (bitsOf 48)) i R = .ok preS ∧
      preS.length = 48 ∧ Bits preS ∧
      (∀ j, j < 8 →
        shl8 (preS.getD (6 * j + 0) 0) 5 ||| shl8 (preS.getD (6 * j + 1) 0) 3 |||
          shl8 (preS.getD (6 * j + 2) 0) 2 ||| shl8 (preS.getD (6 * j + 3) 0) 1 |||
          shl8 (preS.getD (6 * j + 4) 0) 0 ||| shl8 (preS.getD (6 * j + 5) 0) 4 < 64) ∧
      sBoxes preS = .ok f ∧ f.length = 32 ∧ Bits f ∧
      permuteXor L f = .ok newRight ∧ newRight.length = 32 ∧ Bits newRight ∧
      feistelRound Eb (Kws.map (bitsOf 48)) i (L, R) = .ok (R, newRight) := by
  have eL := eq_bitsOf hL bL
  have eR := eq_bitsOf hR bR
  refine ⟨bitsOf 48 (gather 1 Eb (pack R) ^^^ Kws.getD i 0),
    bitsOf 32 (sboxWord (gather 1 Eb (pack R) ^^^ Kws.getD i 0)),
    bitsOf 32 (roundWord Eb (Kws.getD i 0) (pack L) (pack R)), ?_, bitsOf_length _ _,
    bits_bitsOf _ _, ?_, sBoxes_bits _, bitsOf_length _ _, bits_bitsOf _ _, ?_,
    bitsOf_length _ _, bits_bitsOf _ _, ?_⟩
  · have e := expandXor_bits Eb Kws i (pack R) hE hi
    rw [← eR] at e
    exact e
  · intro j _
    have hb := bits_bitsOf 48 (gather 1 Eb (pack R) ^^^ Kws.getD i 0)
    have lt : ∀ m, (bitsOf 48 (gather 1 Eb (pack R) ^^^ Kws.getD i 0)).getD m 0 < 2 := by
      intro m
      have := bits_getD hb m
      omega
    exact sIndex_cells_lt _ (lt _) _ (lt _) _ (lt _) _ (lt _) _ (lt _) _ (lt _)
  · have e := permuteXor_bits (pack L) (sboxWord (gather 1 Eb (pack R) ^^^ Kws.getD i 0))
    rw [← eL] at e
    exact e
  · have e := feistelRound_bits Eb Kws i (pack L) (pack R) hE hi
    rw [← eL, ← eR] at e
    exact e

/-- One call of `desEncrypt` on a block of bits: the halves it loads, the halves
after any number of rounds and the block it writes hold bits. -/
theorem encrypt_cells (Eb Kws : List Nat) (block : List Nat) (hE : GoodE Eb)
    (hK : Kws.length = 16) (hl : block.length = 66) (hb : Bits block) :
    (∃ L R, loadHalves block = .ok (L, R) ∧ L.length = 32 ∧ R.length = 32 ∧ Bits L ∧ Bits R ∧
      ∀ k, k ≤ 16 → ∃ L' R',
        forLoop k (fun i LR => feistelRound Eb (Kws.map (bitsOf 48)) i LR) (L, R) =
          .ok (L', R') ∧
        L'.length = 32 ∧ R'.length = 32 ∧ Bits L' ∧ Bits R') ∧
    ∃ block', desEncrypt Eb (Kws.map (bitsOf 48)) block = .ok block' ∧ block'.length = 66 ∧
      Bits block' := by
  have eB := eq_bitsOf hl hb
  constructor
  · refine ⟨bitsOf 32 (gather 1 (IP.take 32) (pack block)),
      bitsOf 32 (gather 1 (IP.drop 32) (pack block)), ?_, bitsOf_length _ _, bitsOf_length _ _,
      bits_bitsOf _ _, bits_bitsOf _ _, ?_⟩
    · have e := loadHalves_bits (pack block)
      rw [← eB] at e
      exact e
    · intro k hk
      exact ⟨bitsOf 32 (roundsWord Eb (Kws.take k) (gather 1 (IP.take 32) (pack block))
          (gather 1 (IP.drop 32) (pack block))).1,
        bitsOf 32 (roundsWord Eb (Kws.take k) (gather 1 (IP.take 32) (pack block))
          (gather 1 (IP.drop 32) (pack block))).2,
        rounds_bits_upto Eb Kws _ _ k hE (by omega), bitsOf_length _ _,
        bitsOf_length _ _, bits_bitsOf _ _, bits_bitsOf _ _⟩
  · refine ⟨bitsOf 66 (desEncryptWord Eb Kws (pack block)), ?_, bitsOf_length _ _,
      bits_bitsOf _ _⟩
    have e := desEncrypt_bits Eb Kws (pack block) hE hK
    rw [← eB] at e
    exact e

theorem mem_map_bitsOf {Kws : List Nat} {n : Nat} {row : List Nat}
    (h : row ∈ Kws.map (bitsOf n)) : row.length = n ∧ Bits row := by
  rcases List.mem_map.mp h with ⟨w, _, e⟩
  rw [← e]
  exact ⟨bitsOf_length _ _, bits_bitsOf _ _⟩

/-- C21. Bit invariant: for every password and every salt of two bytes or more,
steps 1 to 5 return, and every cell of `key`, `C`, `D` and `KS` is 0 or 1;
after each of the 25 calls of `desEncrypt` every cell of the block is 0 or 1
and every encoded six-bit group is below 64; and in a call on any block of
bits the halves loaded, the halves after each round, `preS`, `f` and the new
right half hold only 0 and 1, every S-box index being below 64. -/
theorem bit_invariant (p s : List Nat) (h : 2 ≤ s.length) :
    ∃ key C D KS Ebits,
      keyBits p = .ok key ∧ permutedChoice1 key = .ok (C, D) ∧ keySchedule C D = .ok KS ∧
      saltedE s = .ok Ebits ∧
      Bits key ∧ Bits C ∧ Bits D ∧ (∀ row, row ∈ KS → Bits row) ∧
      (∀ n, n ≤ 25 → ∃ block,
        forLoop n (fun _ block => desEncrypt Ebits KS block) (List.replicate 66 0) =
          .ok block ∧
        block.length = 66 ∧ Bits block ∧
        ∀ i, i < 11 → ∃ c, sixBits block i = .ok c ∧ c < 64) ∧
      (∀ block : List Nat, block.length = 66 → Bits block →
        (∃ L R, loadHalves block = .ok (L, R) ∧ L.length = 32 ∧ R.length = 32 ∧
          Bits L ∧ Bits R ∧
          ∀ k, k ≤ 16 → ∃ L' R',
            forLoop k (fun i LR => feistelRound Ebits KS i LR) (L, R) = .ok (L', R') ∧
            L'.length = 32 ∧ R'.length = 32 ∧ Bits L' ∧ Bits R') ∧
        ∃ block', desEncrypt Ebits KS block = .ok block' ∧ block'.length = 66 ∧
          Bits block') ∧
      (∀ (i : Nat) (L R : List Nat), i < 16 → L.length = 32 → R.length = 32 → Bits L →
        Bits R →
        ∃ preS f newRight, expandXor Ebits KS i R = .ok preS ∧
          preS.length = 48 ∧ Bits preS ∧
          (∀ j, j < 8 →
            shl8 (preS.getD (6 * j + 0) 0) 5 ||| shl8 (preS.getD (6 * j + 1) 0) 3 |||
              shl8 (preS.getD (6 * j + 2) 0) 2 ||| shl8 (preS.getD (6 * j + 3) 0) 1 |||
              shl8 (preS.getD (6 * j + 4) 0) 0 ||| shl8 (preS.getD (6 * j + 5) 0) 4 < 64) ∧
          sBoxes preS = .ok f ∧ f.length = 32 ∧ Bits f ∧
          permuteXor L f = .ok newRight ∧ newRight.length = 32 ∧ Bits newRight ∧
          feistelRound Ebits KS i (L, R) = .ok (R, newRight)) := by
  have hK := keyWords_length (gather 1 PC1_C (pack (keyList p)))
    (gather 1 PC1_D (pack (keyList p)))
  have hE := saltedTable_good s
  refine ⟨keyList p, bitsOf 28 (gather 1 PC1_C (pack (keyList p))),
    bitsOf 28 (gather 1 PC1_D (pack (keyList p))),
    (keyWords (gather 1 PC1_C (pack (keyList p))) (gather 1 PC1_D (pack (keyList p)))).map
      (bitsOf 48),
    saltedTable s, keyBits_eq p, ?_, keySchedule_bits _ _, saltedE_eq s h, keyList_bits p,
    bits_bitsOf _ _, bits_bitsOf _ _, fun row hr => (mem_map_bitsOf hr).2, ?_, ?_, ?_⟩
  · have e := permutedChoice1_bits (pack (keyList p))
    rw [← keyList_eq_bitsOf] at e
    exact e
  · intro n _
    refine ⟨bitsOf 66 (encryptTimes (saltedTable s)
      (keyWords (gather 1 PC1_C (pack (keyList p))) (gather 1 PC1_D (pack (keyList p)))) n 0),
      encrypt_loop_bits _ _ n hE hK, bitsOf_length _ _, bits_bitsOf _ _, ?_⟩
    intro i hi
    exact ⟨sixWord _ i, sixBits_bits _ i hi, sixWord_lt _ i⟩
  · intro block hl hb
    exact encrypt_cells _ _ block hE hK hl hb
  · intro i L R hi hL hR bL bR
    exact round_cells _ _ i L R hE (by omega) hL hR bL bR

theorem bit_invariant_witness :
    2 ≤ (ascii "xy").length ∧
      ∃ key C D KS Ebits,
        keyBits (ascii "short") = .ok key ∧ permutedChoice1 key = .ok (C, D) ∧
        keySchedule C D = .ok KS ∧ saltedE (ascii "xy") = .ok Ebits ∧
        Bits key ∧ Bits C ∧ Bits D ∧ (∀ row, row ∈ KS → Bits row) :=
  ⟨by decide,
    match bit_invariant (ascii "short") (ascii "xy") (by decide) with
    | ⟨key, C, D, KS, Ebits, h1, h2, h3, h4, h5, h6, h7, h8, _⟩ =>
      ⟨key, C, D, KS, Ebits, h1, h2, h3, h4, h5, h6, h7, h8⟩⟩

/-! ## The initial and the final permutation -/

theorem FP_IP : ∀ j, j < 64 → FP.getD (IP.getD j 0 - 1) 0 = j + 1 := by decide

theorem IP_FP : ∀ j, j < 64 → IP.getD (FP.getD j 0 - 1) 0 = j + 1 := by decide

theorem IP_perm : IP.Perm (List.range' 1 64) := by decide

theorem FP_perm : FP.Perm (List.range' 1 64) := by decide

/-- The halves loaded from the block that `storeBlock` wrote are the halves it
was given. -/
theorem load_stored (l r B : Nat) :
    loadHalves (bitsOf 66 (gather 1 FP (l % 2 ^ 32 + 2 ^ 32 * r) + 2 ^ 64 * (B >>> 64))) =
      .ok (bitsOf 32 l, bitsOf 32 r) := by
  rw [loadHalves_bits]
  have hlt : gather 1 FP (l % 2 ^ 32 + 2 ^ 32 * r) < 2 ^ 64 := gather_lt 1 _ FP
  have cell : ∀ j, j < 64 →
      bit (gather 1 FP (l % 2 ^ 32 + 2 ^ 32 * r) + 2 ^ 64 * (B >>> 64)) (IP.getD j 0 - 1) =
        bit (l % 2 ^ 32 + 2 ^ 32 * r) j := by
    intro j hj
    have hb := IP_range j hj
    rw [bit_add_mul _ _ 64 _ hlt, if_pos (by omega),
      bit_gather 1 _ FP _ (by rw [FP_length]; omega), FP_IP j hj, Nat.add_sub_cancel]
  refine congrArg Except.ok (pair_congr (tab_congr ?_) (tab_congr ?_))
  · intro j hj
    rw [bit_gather 1 _ (IP.take 32) j hj, IP_take j hj, cell j (by omega),
      bit_add_mul _ _ 32 j (Nat.mod_lt _ (by decide)), if_pos hj, bit_mod _ _ _ hj]
  · intro j hj
    rw [bit_gather 1 _ (IP.drop 32) j hj, IP_drop j hj, cell (j + 32) (by omega),
      bit_add_mul _ _ 32 _ (Nat.mod_lt _ (by decide)), if_neg (by omega), Nat.add_sub_cancel]

/-- C22. IP and FP are mutually inverse permutations of `1..64`, so the final
permutation written by one call of `desEncrypt` is undone by the initial
permutation of the next: for any salted table with entries in `1..32`, any
schedule of sixteen subkeys of 48 bits and any block of bits, the call returns
a block from which `loadHalves` gives back the halves the call had after its
final swap. -/
theorem ip_fp_inverse :
    (∀ j, j < 64 →
      FP.getD (IP.getD j 0 - 1) 0 = j + 1 ∧ IP.getD (FP.getD j 0 - 1) 0 = j + 1) ∧
    IP.Perm (List.range' 1 64) ∧ FP.Perm (List.range' 1 64) ∧
    (∀ (L R block : List Nat), L.length = 32 → R.length = 32 → block.length = 66 →
      Bits L → Bits R → Bits block →
      ∃ block', storeBlock (L, R) block = .ok block' ∧ loadHalves block' = .ok (L, R)) ∧
    (∀ (Ebits : List Nat) (KS : List (List Nat)) (block : List Nat), GoodE Ebits →
      KS.length = 16 → (∀ row, row ∈ KS → row.length = 48 ∧ Bits row) →
      block.length = 66 → Bits block →
      ∃ LR0 LR16 LRs block', loadHalves block = .ok LR0 ∧
        forLoop 16 (fun i LR => feistelRound Ebits KS i LR) LR0 = .ok LR16 ∧
        swapHalves LR16 = .ok LRs ∧ storeBlock LRs block = .ok block' ∧
        desEncrypt Ebits KS block = .ok block' ∧ loadHalves block' = .ok LRs) := by
  refine ⟨fun j hj => ⟨FP_IP j hj, IP_FP j hj⟩, IP_perm, FP_perm, ?_, ?_⟩
  · intro L R block hL hR hl bL bR hb
    have eL := eq_bitsOf hL bL
    have eR := eq_bitsOf hR bR
    have eB := eq_bitsOf hl hb
    refine ⟨bitsOf 66 (gather 1 FP (pack L % 2 ^ 32 + 2 ^ 32 * pack R) +
      2 ^ 64 * (pack block >>> 64)), ?_, ?_⟩
    · have e := storeBlock_bits (pack L) (pack R) (pack block)
      rw [← eL, ← eR, ← eB] at e
      exact e
    · have e := load_stored (pack L) (pack R) (pack block)
      rw [← eL, ← eR] at e
      exact e
  · intro Eb KS block hE hK hrow hl hb
    have eB := eq_bitsOf hl hb
    have eK := rows_eq_bitsOf hrow
    have hK' : (KS.map pack).length = 16 := by rw [List.length_map, hK]
    rw [eK, eB]
    have hload := loadHalves_bits (pack block)
    have hrounds := rounds_bits Eb (KS.map pack) (gather 1 (IP.take 32) (pack block))
      (gather 1 (IP.drop 32) (pack block)) hE hK'
    have hswap := swapHalves_bits
      (roundsWord Eb (KS.map pack) (gather 1 (IP.take 32) (pack block))
        (gather 1 (IP.drop 32) (pack block))).1
      (roundsWord Eb (KS.map pack) (gather 1 (IP.take 32) (pack block))
        (gather 1 (IP.drop 32) (pack block))).2
    have hstore := storeBlock_bits
      (roundsWord Eb (KS.map pack) (gather 1 (IP.take 32) (pack block))
        (gather 1 (IP.drop 32) (pack block))).2
      (roundsWord Eb (KS.map pack) (gather 1 (IP.take 32) (pack block))
        (gather 1 (IP.drop 32) (pack block))).1 (pack block)
    refine ⟨_, _, _, _, hload, hrounds, hswap, hstore, ?_, load_stored _ _ _⟩
    rw [desEncrypt_bits Eb (KS.map pack) (pack block) hE hK', desEncryptWord_eq]

theorem ip_fp_inverse_witness :
    GoodE E ∧ (List.replicate 16 (List.replicate 48 0)).length = 16 ∧
      (∀ row, row ∈ List.replicate 16 (List.replicate 48 0) → row.length = 48 ∧ Bits row) ∧
      (List.replicate 66 0).length = 66 ∧ Bits (List.replicate 66 0) ∧
      ∃ LR0 LR16 LRs block', loadHalves (List.replicate 66 0) = .ok LR0 ∧
        forLoop 16 (fun i LR =>
          feistelRound E (List.replicate 16 (List.replicate 48 0)) i LR) LR0 = .ok LR16 ∧
        swapHalves LR16 = .ok LRs ∧ storeBlock LRs (List.replicate 66 0) = .ok block' ∧
        desEncrypt E (List.replicate 16 (List.replicate 48 0)) (List.replicate 66 0) =
          .ok block' ∧
        loadHalves block' = .ok LRs := by
  have hE : GoodE E := ⟨E_length, E_range⟩
  have hrow : ∀ row, row ∈ List.replicate 16 (List.replicate 48 0) →
      row.length = 48 ∧ Bits row := by
    intro row hr
    rw [List.eq_of_mem_replicate hr]
    refine ⟨List.length_replicate _ _, ?_⟩
    intro b hb
    rw [List.eq_of_mem_replicate hb]
    exact Nat.zero_le 1
  have hb : Bits (List.replicate 66 0) := by
    intro b hb
    rw [List.eq_of_mem_replicate hb]
    exact Nat.zero_le 1
  exact ⟨hE, List.length_replicate _ _, hrow, List.length_replicate _ _, hb,
    ip_fp_inverse.2.2.2.2 E _ _ hE (List.length_replicate _ _) hrow
      (List.length_replicate _ _) hb⟩

end Descrypt
